import Mathlib

/-!
Verification of the frame-quality ranking engine and the local stacking engine
of PlanetarySystemStacker against its specification, via a shallow embedding of
rank_frames.py (class RankFrames) and stack_frames.py (class StackFrames).

Modelling conventions:
* Python floats are modelled by exact rationals (ℚ); Python ints by ℤ / ℕ.
* numpy arrays indexed by pixel coordinates are modelled as functions ℕ → ℚ
  (or lists, for one-dimensional weight vectors built with arange).
* Python round (round half to even) is modelled exactly by roundHalfEven;
  round(sqrt(n)) for an integer n is modelled by roundSqrt (the tie case is
  impossible because the square root of an integer is never a half-integer).
* Fallible code returns Except; the PyErr constructors name the Python
  exceptions that RankFrames.find_best_frames can raise.
* Exterior collaborators (frame contents after brightness normalization and
  drizzle interpolation, the per-AP local shift function, the global shift
  table, alignment point geometry) are inputs of the embedding, mirroring
  the interfaces the source consumes.
-/

/-- Python exceptions reachable from RankFrames.find_best_frames. -/
inductive PyErr : Type where
  | argumentError
  | zeroDivisionError
  | statisticsError
  deriving DecidableEq, Repr

/-- Python round: round half to even, as used by int(round(x)) in the source. -/
def roundHalfEven (q : ℚ) : ℤ :=
  if q - ⌊q⌋ < 1/2 then ⌊q⌋
  else if 1/2 < q - ⌊q⌋ then ⌊q⌋ + 1
  else if ⌊q⌋ % 2 = 0 then ⌊q⌋ else ⌊q⌋ + 1

/-- Python round(x, 1): round to one decimal digit. -/
def pyRound1 (q : ℚ) : ℚ := (roundHalfEven (q * 10) : ℚ) / 10

/-- Integer nearest to the square root of a natural number, i.e.
round(sqrt(n)).  Since the square root of a natural number is never exactly a
half-integer, the rounding tie rule is irrelevant here. -/
def roundSqrt (n : ℕ) : ℕ :=
  if (2 * Nat.sqrt n + 1) ^ 2 ≤ 4 * n then Nat.sqrt n + 1 else Nat.sqrt n

/-!
## Rank engine (rank_frames.py)

Python's sorted(indices, key=frame_ranks.__getitem__, reverse=True) is a
stable sort: the result is ordered by strictly descending rank, with ties in
ascending index order.  rankRel is exactly that (total, transitive) order.
-/

/-- Comparison used by the index sorts in RankFrames: descending rank,
ties broken by ascending index (Python sorted with reverse=True is stable). -/
def rankRel (ranks : List ℚ) (i j : ℕ) : Prop :=
  ranks.getD j 0 < ranks.getD i 0 ∨ (ranks.getD i 0 = ranks.getD j 0 ∧ i ≤ j)

instance (ranks : List ℚ) : DecidableRel (rankRel ranks) := fun i j => by
  unfold rankRel; infer_instance

/-- Model of sorted(l, key=frame_ranks.__getitem__, reverse=True). -/
def sortIndicesDesc (ranks : List ℚ) (l : List ℕ) : List ℕ :=
  List.insertionSort (rankRel ranks) l

/-- State of a RankFrames object: the immutable ..._original set and the
active set produced by an optional index translation. -/
structure RankState : Type where
  number_original : ℕ
  frame_ranks_original : List ℚ
  quality_sorted_indices_original : List ℕ
  rank_indices_original : List ℕ
  frame_ranks_max_index_original : ℕ
  frame_ranks_max_value_original : ℚ
  number : ℕ
  frame_ranks : List ℚ
  quality_sorted_indices : List ℕ
  rank_indices : List ℕ
  frame_ranks_max_index : ℕ
  frame_ranks_max_value : ℚ
  deriving DecidableEq, Repr

/-- RankFrames.set_index_translation: gather the original scores at the
translated indices, rebuild both index views, and renormalize by the maximum.
The ..._original fields are not touched by the source method. -/
def set_index_translation (st : RankState) (index_translation : List ℕ) : RankState :=
  let number := index_translation.length
  let franks := index_translation.map fun i => st.frame_ranks_original.getD i 0
  let qsi := sortIndicesDesc franks (List.range number)
  let rinds := (List.range number).map fun i => qsi.indexOf i
  let maxIdx := qsi.headD 0
  let maxVal := franks.getD maxIdx 0
  { st with
    number := number
    frame_ranks := franks.map fun q => q / maxVal
    quality_sorted_indices := qsi
    rank_indices := rinds
    frame_ranks_max_index := maxIdx
    frame_ranks_max_value := maxVal }

/-- RankFrames.reset_index_translation: restore the active set from the saved
originals without recomputation. -/
def reset_index_translation (st : RankState) : RankState :=
  { st with
    number := st.number_original
    frame_ranks := st.frame_ranks_original
    quality_sorted_indices := st.quality_sorted_indices_original
    rank_indices := st.rank_indices_original
    frame_ranks_max_index := st.frame_ranks_max_index_original
    frame_ranks_max_value := st.frame_ranks_max_value_original }

/-- A RankState whose active set coincides with the saved originals, as is
the case right after frame_score (and after reset_index_translation). -/
def RankSynced (st : RankState) : Prop :=
  st.number = st.number_original ∧
  st.frame_ranks = st.frame_ranks_original ∧
  st.quality_sorted_indices = st.quality_sorted_indices_original ∧
  st.rank_indices = st.rank_indices_original ∧
  st.frame_ranks_max_index = st.frame_ranks_max_index_original ∧
  st.frame_ranks_max_value = st.frame_ranks_max_value_original

/-- Sum of the ranks at the given frame indices,
sum([frame_ranks[i] for i in l]). -/
def ranksSum (ranks : List ℚ) (l : List ℕ) : ℚ :=
  (l.map fun i => ranks.getD i 0).sum

/-- sorted(range(start, start+window), key=ranks.__getitem__,
reverse=True)[:k] — the k best frame indices inside one sliding window. -/
def windowBest (ranks : List ℚ) (k w s : ℕ) : List ℕ :=
  (sortIndicesDesc ranks (List.range' s w)).take k

/-- Rank sum of the k best frames of the window starting at s. -/
def windowTopSum (ranks : List ℚ) (k w s : ℕ) : ℚ :=
  ranksSum ranks (windowBest ranks k w s)

/-- One iteration of the sliding-window loop in find_best_frames: keep the
candidate if its rank sum strictly exceeds the best so far. -/
def stepBL (ranks : List ℚ) (k w : ℕ) (acc : ℚ × List ℕ) (s : ℕ) : ℚ × List ℕ :=
  let cand := windowBest ranks k w s
  let rs := ranksSum ranks cand
  if acc.1 < rs then (rs, cand) else acc

/-- The sliding-window loop of find_best_frames, starting from
rank_sum_opt = 0 and best_indices = []. -/
def bestLoop (ranks : List ℚ) (k w n : ℕ) : ℚ × List ℕ :=
  (List.range (n - w + 1)).foldl (stepBL ranks k w) (0, [])

/-- statistics.mean of a list of integer indices (exact value). -/
def listMean (l : List ℕ) : ℚ := ((l.map fun (i : ℕ) => (i : ℚ)).sum) / l.length

/-- RankFrames.find_best_frames.  Mirrors the source order of events:
argument checks raising ArgumentError, the sliding-window loop, the
quality-loss division (float division by zero raises ZeroDivisionError),
then statistics.mean of the chosen indices (raises StatisticsError on an
empty list).  The method never writes to self, so the returned state is the
input state. -/
def find_best_frames (st : RankState) (number_frames region_size : ℕ) :
    Except PyErr (List ℕ × ℚ × ℚ × RankState) :=
  if number_frames > region_size then Except.error PyErr.argumentError
  else if region_size > st.number then Except.error PyErr.argumentError
  else if ranksSum st.frame_ranks (st.quality_sorted_indices.take number_frames) = 0 then
    Except.error PyErr.zeroDivisionError
  else if (bestLoop st.frame_ranks number_frames region_size st.number).2 = [] then
    Except.error PyErr.statisticsError
  else
    Except.ok ((bestLoop st.frame_ranks number_frames region_size st.number).2,
      pyRound1 (100 *
        (ranksSum st.frame_ranks (st.quality_sorted_indices.take number_frames) -
          (bestLoop st.frame_ranks number_frames region_size st.number).1) /
        ranksSum st.frame_ranks (st.quality_sorted_indices.take number_frames)),
      pyRound1 (100 *
        listMean (bestLoop st.frame_ranks number_frames region_size st.number).2 /
        st.number), st)

/-- State of a RankFrames object right after frame_score, for an
already-normalized rank vector (the sharpness kernels themselves are external
collaborators).  Active set and originals coincide. -/
def mkRankState (ranks : List ℚ) : RankState :=
  let qsi := sortIndicesDesc ranks (List.range ranks.length)
  { number_original := ranks.length
    frame_ranks_original := ranks
    quality_sorted_indices_original := qsi
    rank_indices_original := (List.range ranks.length).map fun i => qsi.indexOf i
    frame_ranks_max_index_original := qsi.headD 0
    frame_ranks_max_value_original := ranks.getD (qsi.headD 0) 0
    number := ranks.length
    frame_ranks := ranks
    quality_sorted_indices := qsi
    rank_indices := (List.range ranks.length).map fun i => qsi.indexOf i
    frame_ranks_max_index := qsi.headD 0
    frame_ranks_max_value := ranks.getD (qsi.headD 0) 0 }

/-- The normalized scores of scenario S4 of the specification. -/
def scoresS4 : List ℚ := [1/5, 9/10, 1/2, 1, 7/10]

/-- Rank state for the S4 realization (N = 5). -/
def stS4 : RankState := mkRankState scoresS4

/-- Degenerate one-frame rank state with the single (normalized) score 1. -/
def stOne : RankState := mkRankState [1]

/-!
## Patch weight builder (StackFrames.one_dim_weight and the weight mask)
-/

/-- StackFrames.one_dim_weight: the 1-D blending ramp over the patch interval
[patch_low, patch_high) with centre box_center.  Below the centre the ramp is
arange(1, center_offset+1)/(center_offset+1); from the centre on it is
arange(patch_high-box_center, 0, -1)/(patch_high-box_center); a side with its
extend flag set is the constant 1 instead. -/
def one_dim_weight (patch_low patch_high box_center : ℕ)
    (extend_low extend_high : Bool) : List ℚ :=
  (if extend_low then
    List.replicate (box_center - patch_low) 1
  else
    (List.range (box_center - patch_low)).map fun (j : ℕ) =>
      ((j : ℚ) + 1) / (((box_center - patch_low : ℕ) : ℚ) + 1)) ++
  (if extend_high then
    List.replicate (patch_high - box_center) 1
  else
    (List.range (patch_high - box_center)).map fun (j : ℕ) =>
      (((patch_high - box_center : ℕ) : ℚ) - (j : ℚ)) /
        ((patch_high - box_center : ℕ) : ℚ))

/-- Geometry of one alignment point in drizzled coordinates (the subset of
the AP dictionary read by the stacking engine's weight accumulation). -/
structure AlignmentPointGeom : Type where
  patch_y_low_drizzled : ℕ
  patch_y_high_drizzled : ℕ
  y_drizzled : ℕ
  patch_x_low_drizzled : ℕ
  patch_x_high_drizzled : ℕ
  x_drizzled : ℕ
  deriving DecidableEq, Repr

/-- The 2-D weight mask of one alignment point: elementwise minimum of the
two 1-D ramps, with a side abutting the drizzled image edge extended to 1
(prepare_for_stack_blending, minimum of the two newaxis-broadcast ramps).
Arguments i j are offsets inside the patch. -/
def ap_weights_yx (dim_y_drizzled dim_x_drizzled : ℕ) (ap : AlignmentPointGeom)
    (i j : ℕ) : ℚ :=
  min ((one_dim_weight ap.patch_y_low_drizzled ap.patch_y_high_drizzled
          ap.y_drizzled (ap.patch_y_low_drizzled == 0)
          (ap.patch_y_high_drizzled == dim_y_drizzled)).getD i 0)
      ((one_dim_weight ap.patch_x_low_drizzled ap.patch_x_high_drizzled
          ap.x_drizzled (ap.patch_x_low_drizzled == 0)
          (ap.patch_x_high_drizzled == dim_x_drizzled)).getD j 0)

/-- Initial fill value of the weight-sum buffer (the 1e-30 sentinel). -/
def weight_init : ℚ := 1 / 10 ^ 30

/-- The sum_single_frame_weights buffer after the accumulation loop of
prepare_for_stack_blending: starts at the 1e-30 sentinel everywhere, then for
every alignment point adds stack_size * weights inside its drizzled patch. -/
def sum_single_frame_weights (dim_y_drizzled dim_x_drizzled : ℕ)
    (aps : List AlignmentPointGeom) (stack_size : ℕ) : ℕ → ℕ → ℚ :=
  aps.foldl
    (fun acc ap => fun y x =>
      if ap.patch_y_low_drizzled ≤ y ∧ y < ap.patch_y_high_drizzled ∧
         ap.patch_x_low_drizzled ≤ x ∧ x < ap.patch_x_high_drizzled then
        acc y x + (stack_size : ℚ) *
          ap_weights_yx dim_y_drizzled dim_x_drizzled ap
            (y - ap.patch_y_low_drizzled) (x - ap.patch_x_low_drizzled)
      else acc y x)
    (fun _ _ => weight_init)

/-!
## Background planner (prepare_for_stack_blending, tile generation)
-/

/-- One background tile, in source coordinates. -/
structure BGPatch : Type where
  patch_y_low : ℕ
  patch_y_high : ℕ
  patch_x_low : ℕ
  patch_x_high : ℕ
  deriving DecidableEq, Repr

/-- Python range(0, stop, step) for step ≥ 1: the multiples of step below
stop, in increasing order. -/
def pyRangeStep (stop step : ℕ) : List ℕ :=
  (List.range stop).filter fun v => v % step == 0

/-- All candidate background tiles generated by the double loop of
prepare_for_stack_blending: patch_y_high = min(patch_y_low + patch_size,
dim_y - 1), tiles of zero extent skipped (continue). -/
def background_tiles_all (dim_y dim_x patch_size : ℕ) : List BGPatch :=
  (pyRangeStep dim_y patch_size).flatMap fun ylo =>
    if ylo = min (ylo + patch_size) (dim_y - 1) then []
    else
      (pyRangeStep dim_x patch_size).flatMap fun xlo =>
        if xlo = min (xlo + patch_size) (dim_x - 1) then []
        else [⟨ylo, min (ylo + patch_size) (dim_y - 1), xlo,
          min (xlo + patch_size) (dim_x - 1)⟩]

/-- count_nonzero(sum_single_frame_weights[tile drizzled] < threshold) > 0:
the tile's drizzled projection contains a pixel where the background is
used. -/
def tile_needs_background (drizzle_factor : ℕ) (weight_sum : ℕ → ℕ → ℚ)
    (threshold : ℚ) (t : BGPatch) : Bool :=
  (List.range (t.patch_y_high * drizzle_factor - t.patch_y_low * drizzle_factor)).any
    fun oy =>
      (List.range (t.patch_x_high * drizzle_factor - t.patch_x_low * drizzle_factor)).any
        fun ox =>
          decide (weight_sum (t.patch_y_low * drizzle_factor + oy)
                    (t.patch_x_low * drizzle_factor + ox) < threshold)

/-- The background_patches list built by prepare_for_stack_blending:
candidate tiles kept when their drizzled projection contains a pixel with
weight sum below blend_threshold * stack_size. -/
def background_patches (dim_y dim_x patch_size drizzle_factor : ℕ)
    (weight_sum : ℕ → ℕ → ℚ) (threshold : ℚ) : List BGPatch :=
  (background_tiles_all dim_y dim_x patch_size).filter
    (tile_needs_background drizzle_factor weight_sum threshold)

/-- Number of grid points (y, x) with y < h, x < w satisfying p, modelling
numpy count_nonzero over an h × w array. -/
def countGrid (h w : ℕ) (p : ℕ → ℕ → Bool) : ℕ :=
  ((List.range h).map fun y => ((List.range w).filter (p y)).length).sum

/-- The decision of prepare_for_stack_blending to build the tile plan:
stacking holes exist (weight sum below 1e-10 somewhere) and the fraction of
points where the background is used is below background_fraction. -/
def background_plan_built (dim_y dim_x drizzle_factor : ℕ)
    (weight_sum : ℕ → ℕ → ℚ) (stack_size : ℕ)
    (blend_threshold background_fraction : ℚ) : Bool :=
  let holes := countGrid (dim_y * drizzle_factor) (dim_x * drizzle_factor)
    fun y x => decide (weight_sum y x < 1 / 10 ^ 10)
  let used := countGrid (dim_y * drizzle_factor) (dim_x * drizzle_factor)
    fun y x => decide (weight_sum y x < blend_threshold * (stack_size : ℚ))
  decide (holes ≠ 0) &&
    decide ((used : ℚ) / ((dim_y * drizzle_factor * (dim_x * drizzle_factor) : ℕ) : ℚ)
      < background_fraction)

/-- Predicate characterizing the candidate tiles: lows are multiples of
patch_size below the image dimension, highs are clipped to dimension - 1,
zero-extent tiles are dropped. -/
def IsBGTile (dim_y dim_x patch_size : ℕ) (t : BGPatch) : Prop :=
  t.patch_y_low % patch_size = 0 ∧ t.patch_y_low < dim_y ∧
  t.patch_y_high = min (t.patch_y_low + patch_size) (dim_y - 1) ∧
  t.patch_y_low < t.patch_y_high ∧
  t.patch_x_low % patch_size = 0 ∧ t.patch_x_low < dim_x ∧
  t.patch_x_high = min (t.patch_x_low + patch_size) (dim_x - 1) ∧
  t.patch_x_low < t.patch_x_high

/-- Pixel (y, x) lies inside tile t. -/
def tileCovers (t : BGPatch) (y x : ℕ) : Prop :=
  t.patch_y_low ≤ y ∧ y < t.patch_y_high ∧
  t.patch_x_low ≤ x ∧ x < t.patch_x_high

/-- A weight-sum field with a single stacking hole at pixel (2, 2) of a
3 × 3 image: used by the background-planner counterexample. -/
def holeWeightSum : ℕ → ℕ → ℚ := fun y x => if y = 2 ∧ x = 2 then 0 else 10

/-!
## Shift-and-accumulate kernel (StackFrames.remap_rigid) and the stacking loop
-/

/-- Result of one remap_rigid call: the updated stacking buffer and the four
border clip counters. -/
structure RemapResult : Type where
  buffer : ℕ → ℕ → ℚ
  border_y_low : ℕ
  border_y_high : ℕ
  border_x_low : ℕ
  border_x_high : ℕ

/-- Low-side clip of remap_rigid: the target start index (0, or -source
start when the source start is negative). -/
def clipLowTarget (a : ℤ) : ℤ := if a < 0 then -a else 0

/-- Low-side clip of remap_rigid: the clipped source start index. -/
def clipLowSource (a : ℤ) : ℤ := if a < 0 then 0 else a

/-- High-side clip of remap_rigid: source stop index clipped to the frame
size. -/
def clipHighSource (b bound : ℤ) : ℤ := if b > bound then bound else b

/-- Border counter update for a low-side clip. -/
def clipLowBorder (old : ℕ) (a : ℤ) : ℕ :=
  if a < 0 then max old (-a).toNat else old

/-- Border counter update for a high-side clip. -/
def clipHighBorder (old : ℕ) (b bound : ℤ) : ℕ :=
  if b > bound then max old (b - bound).toNat else old

/-- StackFrames.remap_rigid: add the rectangle
[y_low+shift_y, y_high+shift_y) × [x_low+shift_x, x_high+shift_x) of frame
into the buffer (origin (0,0)), clipping at the frame borders and updating
the four border counters to the maximum clip observed.  The numpy slice
addition is modelled pointwise; this coincides with the source whenever the
clipped slices are well formed (outside that regime the numpy statement
raises, see remapWellFormed). -/
def remap_rigid (frame_size_y frame_size_x : ℕ) (frame buffer : ℕ → ℕ → ℚ)
    (shift_y shift_x : ℤ) (y_low y_high x_low x_high : ℕ)
    (border_y_low border_y_high border_x_low border_x_high : ℕ) : RemapResult :=
  { buffer := fun u v =>
      if clipLowTarget ((y_low : ℤ) + shift_y) ≤ (u : ℤ) ∧
         (u : ℤ) < clipLowTarget ((y_low : ℤ) + shift_y) +
           clipHighSource ((y_high : ℤ) + shift_y) frame_size_y -
           clipLowSource ((y_low : ℤ) + shift_y) ∧
         clipLowTarget ((x_low : ℤ) + shift_x) ≤ (v : ℤ) ∧
         (v : ℤ) < clipLowTarget ((x_low : ℤ) + shift_x) +
           clipHighSource ((x_high : ℤ) + shift_x) frame_size_x -
           clipLowSource ((x_low : ℤ) + shift_x) then
        buffer u v +
          frame ((u : ℤ) - clipLowTarget ((y_low : ℤ) + shift_y) +
                  clipLowSource ((y_low : ℤ) + shift_y)).toNat
                ((v : ℤ) - clipLowTarget ((x_low : ℤ) + shift_x) +
                  clipLowSource ((x_low : ℤ) + shift_x)).toNat
      else buffer u v
    border_y_low := clipLowBorder border_y_low ((y_low : ℤ) + shift_y)
    border_y_high := clipHighBorder border_y_high ((y_high : ℤ) + shift_y) frame_size_y
    border_x_low := clipLowBorder border_x_low ((x_low : ℤ) + shift_x)
    border_x_high := clipHighBorder border_x_high ((x_high : ℤ) + shift_x) frame_size_x }

/-- Inputs of the frame loop of StackFrames.stack_frames.  frameD i is the
frame i after optional brightness normalization and drizzle interpolation
(both external to the properties verified here); shiftFn returns
([shift_y, shift_x], success) of compute_shift_alignment_point. -/
structure StackCtx : Type where
  numFrames : ℕ
  usedAPs : ℕ → List ℕ
  shiftFn : ℕ → ℕ → ℚ × ℚ × Bool
  dy : ℕ → ℤ
  dx : ℕ → ℤ
  drizzleFactor : ℕ
  searchWidth : ℕ
  frameD : ℕ → ℕ → ℕ → ℚ
  frameH : ℕ
  frameW : ℕ
  apYlo : ℕ → ℕ
  apYhi : ℕ → ℕ
  apXlo : ℕ → ℕ
  apXhi : ℕ → ℕ

/-- Mutable state of the stacking loop: the shift histogram, the failure
counter, the per-AP stacking buffers, and the four border counters.  The
histogram is modelled as a total function on bin indices; the source array
has length 2 * search_width * drizzle_factor, and under the search-width
contract on the local shifts every increment lands inside that range (the
source would raise IndexError otherwise). -/
structure StackSt : Type where
  shift_distribution : ℕ → ℕ
  shift_failure_counter : ℕ
  buffers : ℕ → ℕ → ℕ → ℚ
  border_y_low : ℕ
  border_y_high : ℕ
  border_x_low : ℕ
  border_x_high : ℕ

/-- Increment a histogram at one index. -/
def incrAt (f : ℕ → ℕ) (n : ℕ) : ℕ → ℕ :=
  fun m => if m = n then f m + 1 else f m

/-- The histogram bin of one (frame, AP) pair:
int(round(sqrt(shift_y_drizzled ** 2 + shift_x_drizzled ** 2))) with
shift_*_drizzled = int(round(shift_* * drizzle_factor)). -/
def histIndex (drizzle_factor : ℕ) (shift_y shift_x : ℚ) : ℕ :=
  roundSqrt ((roundHalfEven (shift_y * drizzle_factor)) ^ 2 +
    (roundHalfEven (shift_x * drizzle_factor)) ^ 2).toNat

/-- total_shift_y_drizzled = dy * drizzle_factor - shift_y_drizzled. -/
def totalShiftY (ctx : StackCtx) (i a : ℕ) : ℤ :=
  ctx.dy i * ctx.drizzleFactor - roundHalfEven ((ctx.shiftFn i a).1 * ctx.drizzleFactor)

/-- total_shift_x_drizzled = dx * drizzle_factor - shift_x_drizzled. -/
def totalShiftX (ctx : StackCtx) (i a : ℕ) : ℤ :=
  ctx.dx i * ctx.drizzleFactor - roundHalfEven ((ctx.shiftFn i a).2.1 * ctx.drizzleFactor)

/-- The remap_rigid call issued for the pair of frame i and alignment point
a (the source calls it with the AP's drizzled patch bounds and the total
drizzled shift). -/
def stackPairRemap (ctx : StackCtx) (i : ℕ) (st : StackSt) (a : ℕ) : RemapResult :=
  remap_rigid ctx.frameH ctx.frameW (ctx.frameD i) (st.buffers a)
    (totalShiftY ctx i a) (totalShiftX ctx i a)
    (ctx.apYlo a) (ctx.apYhi a) (ctx.apXlo a) (ctx.apXhi a)
    st.border_y_low st.border_y_high st.border_x_low st.border_x_high

/-- Processing of one alignment point inside the frame loop of stack_frames:
on success increment the histogram bin of the drizzled shift magnitude, on
failure increment the failure counter, and in both cases remap_rigid the
shifted patch into this AP's stacking buffer. -/
def stackPair (ctx : StackCtx) (i : ℕ) (st : StackSt) (a : ℕ) : StackSt :=
  { shift_distribution :=
      if (ctx.shiftFn i a).2.2 then
        incrAt st.shift_distribution
          (histIndex ctx.drizzleFactor (ctx.shiftFn i a).1 (ctx.shiftFn i a).2.1)
      else st.shift_distribution
    shift_failure_counter :=
      if (ctx.shiftFn i a).2.2 then st.shift_failure_counter
      else st.shift_failure_counter + 1
    buffers := fun b => if b = a then (stackPairRemap ctx i st a).buffer else st.buffers b
    border_y_low := (stackPairRemap ctx i st a).border_y_low
    border_y_high := (stackPairRemap ctx i st a).border_y_high
    border_x_low := (stackPairRemap ctx i st a).border_x_low
    border_x_high := (stackPairRemap ctx i st a).border_x_high }

/-- Initial stacking state: zero histogram, zero failure counter,
zero-initialized AP stacking buffers, zero border counters. -/
def initialStackSt : StackSt :=
  { shift_distribution := fun _ => 0
    shift_failure_counter := 0
    buffers := fun _ _ _ => 0
    border_y_low := 0
    border_y_high := 0
    border_x_low := 0
    border_x_high := 0 }

/-- Inner loop of stack_frames over the alignment points used by frame i. -/
def stackFrame (ctx : StackCtx) (st : StackSt) (i : ℕ) : StackSt :=
  (ctx.usedAPs i).foldl (stackPair ctx i) st

/-- The full frame loop of StackFrames.stack_frames (histogram, failure
counter, AP buffers, border counters). -/
def stack_frames_loop (ctx : StackCtx) : StackSt :=
  (List.range ctx.numFrames).foldl (stackFrame ctx) initialStackSt

/-- Pointwise contribution of the pair (frame, AP) to buffer pixel (u, v):
the frame value at the totally shifted position when it falls inside both
the patch and the frame, 0 otherwise. -/
def remapContrib (frame_size_y frame_size_x : ℕ) (frame : ℕ → ℕ → ℚ)
    (shift_y shift_x : ℤ) (y_low y_high x_low x_high u v : ℕ) : ℚ :=
  if 0 ≤ (u : ℤ) + y_low + shift_y ∧ (u : ℤ) + y_low + shift_y < frame_size_y ∧
     u + y_low < y_high ∧
     0 ≤ (v : ℤ) + x_low + shift_x ∧ (v : ℤ) + x_low + shift_x < frame_size_x ∧
     v + x_low < x_high then
    frame ((u : ℤ) + y_low + shift_y).toNat ((v : ℤ) + x_low + shift_x).toNat
  else 0

/-- Contribution of the pair (frame i, AP a) to pixel (u, v) of the AP's
stacking buffer. -/
def stackContrib (ctx : StackCtx) (i a u v : ℕ) : ℚ :=
  remapContrib ctx.frameH ctx.frameW (ctx.frameD i)
    (totalShiftY ctx i a) (totalShiftX ctx i a)
    (ctx.apYlo a) (ctx.apYhi a) (ctx.apXlo a) (ctx.apXhi a) u v

/-- Domain on which the pointwise model of the numpy slice addition in
remap_rigid is exact: the clipped source slice is non-degenerate in both
directions (outside it the source raises a broadcast error). -/
def remapWellFormed (ctx : StackCtx) (i a : ℕ) : Prop :=
  0 ≤ (ctx.apYhi a : ℤ) + totalShiftY ctx i a ∧
  (ctx.apYlo a : ℤ) + totalShiftY ctx i a ≤ (ctx.frameH : ℤ) ∧
  0 ≤ (ctx.apXhi a : ℤ) + totalShiftX ctx i a ∧
  (ctx.apXlo a : ℤ) + totalShiftX ctx i a ≤ (ctx.frameW : ℤ)

/-- A one-frame, one-AP stacking scenario whose single local-shift
measurement fails (success = False) with returned shift (0, 0): the frame is
constant 7, the AP patch covers the whole 4 × 4 frame, no global shift, no
drizzle. -/
def ctxFail : StackCtx :=
  { numFrames := 1
    usedAPs := fun _ => [0]
    shiftFn := fun _ _ => (0, 0, false)
    dy := fun _ => 0
    dx := fun _ => 0
    drizzleFactor := 1
    searchWidth := 1
    frameD := fun _ _ _ => 7
    frameH := 4
    frameW := 4
    apYlo := fun _ => 0
    apYhi := fun _ => 4
    apXlo := fun _ => 0
    apXhi := fun _ => 4 }

/-!
## Rounding lemmas
-/

theorem roundHalfEven_le (q : ℚ) : (roundHalfEven q : ℚ) ≤ q + 1/2 := by
  unfold roundHalfEven
  have h1 : ((⌊q⌋ : ℤ) : ℚ) ≤ q := Int.floor_le q
  have h2 : q < (⌊q⌋ : ℚ) + 1 := Int.lt_floor_add_one q
  split_ifs <;> push_cast <;> linarith

theorem le_roundHalfEven (q : ℚ) : q - 1/2 ≤ (roundHalfEven q : ℚ) := by
  unfold roundHalfEven
  have h1 : ((⌊q⌋ : ℤ) : ℚ) ≤ q := Int.floor_le q
  have h2 : q < (⌊q⌋ : ℚ) + 1 := Int.lt_floor_add_one q
  split_ifs <;> push_cast <;> linarith

theorem roundHalfEven_abs_le (q : ℚ) (M : ℤ) (h : |q| ≤ (M : ℚ)) :
    |roundHalfEven q| ≤ M := by
  rw [abs_le] at h ⊢
  constructor
  · have h1 := le_roundHalfEven q
    have h3 : (-M : ℚ) - 1 < (roundHalfEven q : ℚ) := by linarith [h.1]
    have h4 : (-M : ℤ) - 1 < roundHalfEven q := by exact_mod_cast h3
    omega
  · have h1 := roundHalfEven_le q
    have h3 : (roundHalfEven q : ℚ) < (M : ℚ) + 1 := by linarith [h.2]
    have h4 : roundHalfEven q < M + 1 := by exact_mod_cast h3
    omega

theorem roundSqrt_lt (n M : ℕ) (hM : 1 ≤ M) (hn : n ≤ 2 * M ^ 2) :
    roundSqrt n < 2 * M := by
  unfold roundSqrt
  have hs1 : Nat.sqrt n ^ 2 ≤ n := Nat.sqrt_le' n
  split_ifs with h
  · by_contra hcon
    push_neg at hcon
    have h4 : (4 * (M : ℤ) - 1) ^ 2 ≤ ((2 * Nat.sqrt n + 1 : ℕ) : ℤ) ^ 2 := by
      have hb : (4 * (M : ℤ) - 1) ≤ ((2 * Nat.sqrt n + 1 : ℕ) : ℤ) := by
        push_cast; omega
      have h0 : (0 : ℤ) ≤ 4 * (M : ℤ) - 1 := by
        have : (1 : ℤ) ≤ (M : ℤ) := by exact_mod_cast hM
        omega
      exact pow_le_pow_left₀ h0 hb 2
    have h5 : ((2 * Nat.sqrt n + 1 : ℕ) : ℤ) ^ 2 ≤ 4 * (n : ℤ) := by exact_mod_cast h
    have h6 : (n : ℤ) ≤ 2 * (M : ℤ) ^ 2 := by exact_mod_cast hn
    have h7 : (1 : ℤ) ≤ (M : ℤ) := by exact_mod_cast hM
    nlinarith [sq_nonneg ((M : ℤ) - 1)]
  · by_contra hcon
    push_neg at hcon
    have hp : (2 * M) ^ 2 ≤ Nat.sqrt n ^ 2 := Nat.pow_le_pow_left hcon 2
    have he : (2 * M) ^ 2 = 4 * M ^ 2 := by ring
    have hz : M ^ 2 = 0 := by omega
    have hposM : 0 < M ^ 2 := pow_pos (by omega) 2
    omega

theorem histIndex_lt (drizzle_factor search_width : ℕ) (shift_y shift_x : ℚ)
    (hD : 1 ≤ drizzle_factor) (hsw : 1 ≤ search_width)
    (hy : |shift_y| ≤ (search_width : ℚ)) (hx : |shift_x| ≤ (search_width : ℚ)) :
    histIndex drizzle_factor shift_y shift_x < 2 * search_width * drizzle_factor := by
  unfold histIndex
  have hM : (1 : ℕ) ≤ search_width * drizzle_factor := Nat.mul_le_mul hsw hD
  have habs : ∀ q : ℚ, |q| ≤ (search_width : ℚ) →
      |roundHalfEven (q * drizzle_factor)| ≤ ((search_width * drizzle_factor : ℕ) : ℤ) := by
    intro q hq
    apply roundHalfEven_abs_le
    rw [abs_mul]
    have hDq : |(drizzle_factor : ℚ)| = (drizzle_factor : ℚ) := abs_of_nonneg (by positivity)
    rw [hDq]
    push_cast
    exact mul_le_mul_of_nonneg_right hq (by positivity)
  have hyd := habs shift_y hy
  have hxd := habs shift_x hx
  have hsum : ((roundHalfEven (shift_y * drizzle_factor)) ^ 2 +
      (roundHalfEven (shift_x * drizzle_factor)) ^ 2).toNat ≤
      2 * (search_width * drizzle_factor) ^ 2 := by
    rw [Int.toNat_le]
    have h1 : (roundHalfEven (shift_y * drizzle_factor)) ^ 2 ≤
        ((search_width * drizzle_factor : ℕ) : ℤ) ^ 2 := by
      rw [← sq_abs]
      exact pow_le_pow_left₀ (abs_nonneg _) hyd 2
    have h2 : (roundHalfEven (shift_x * drizzle_factor)) ^ 2 ≤
        ((search_width * drizzle_factor : ℕ) : ℤ) ^ 2 := by
      rw [← sq_abs]
      exact pow_le_pow_left₀ (abs_nonneg _) hxd 2
    push_cast at h1 h2 ⊢
    linarith
  have hlt := roundSqrt_lt _ (search_width * drizzle_factor) hM hsum
  calc roundSqrt ((roundHalfEven (shift_y * drizzle_factor)) ^ 2 +
        (roundHalfEven (shift_x * drizzle_factor)) ^ 2).toNat
      < 2 * (search_width * drizzle_factor) := hlt
    _ = 2 * search_width * drizzle_factor := by ring

/-- Claim C10: for every evaluated (frame, alignment point) pair whose local
shift satisfies the search-width bound in source coordinates, the histogram
index round(sqrt(shift_y_drizzled^2 + shift_x_drizzled^2)) is strictly below
2 * search_width * drizzle_factor, the length of the shift-distribution
array, so the histogram increment is in bounds. -/
theorem shift_histogram_index_in_bounds (drizzle_factor search_width : ℕ)
    (shift_y shift_x : ℚ) (hD : 1 ≤ drizzle_factor) (hsw : 1 ≤ search_width)
    (hy : |shift_y| ≤ (search_width : ℚ)) (hx : |shift_x| ≤ (search_width : ℚ)) :
    histIndex drizzle_factor shift_y shift_x < 2 * search_width * drizzle_factor :=
  histIndex_lt drizzle_factor search_width shift_y shift_x hD hsw hy hx

theorem shift_histogram_index_in_bounds_witness :
    ((1 : ℕ) ≤ 2 ∧ (1 : ℕ) ≤ 3 ∧ |(-3/2 : ℚ)| ≤ (3 : ℚ) ∧ |(2 : ℚ)| ≤ (3 : ℚ)) ∧
    histIndex 2 (-3/2) 2 < 2 * 3 * 2 :=
  ⟨⟨by norm_num, by norm_num, by rw [abs_le]; constructor <;> norm_num,
      by rw [abs_le]; constructor <;> norm_num⟩,
    shift_histogram_index_in_bounds 2 3 (-3/2) 2 (by norm_num) (by norm_num)
      (by rw [abs_le]; constructor <;> norm_num)
      (by rw [abs_le]; constructor <;> norm_num)⟩

/-!
## Histogram totals (stack_frames loop)
-/

/-- Sum of the histogram bins (array of length L) plus the failure counter. -/
def histTotal (L : ℕ) (st : StackSt) : ℕ :=
  (∑ r ∈ Finset.range L, st.shift_distribution r) + st.shift_failure_counter

theorem sum_incrAt (L idx : ℕ) (f : ℕ → ℕ) (h : idx < L) :
    (∑ r ∈ Finset.range L, incrAt f idx r) = (∑ r ∈ Finset.range L, f r) + 1 := by
  unfold incrAt
  have hsplit : ∀ r : ℕ, (if r = idx then f r + 1 else f r) =
      f r + (if r = idx then 1 else 0) := by
    intro r; split <;> simp
  simp only [hsplit]
  rw [Finset.sum_add_distrib, Finset.sum_ite_eq' (Finset.range L) idx fun _ => 1]
  simp [Finset.mem_range.mpr h]

theorem stackPair_histTotal (ctx : StackCtx) (i a L : ℕ) (st : StackSt)
    (hidx : histIndex ctx.drizzleFactor (ctx.shiftFn i a).1 (ctx.shiftFn i a).2.1 < L) :
    histTotal L (stackPair ctx i st a) = histTotal L st + 1 := by
  unfold histTotal stackPair
  cases hsucc : (ctx.shiftFn i a).2.2 with
  | false => simp only [hsucc, Bool.false_eq_true, if_false]; omega
  | true =>
    simp only [hsucc, if_true]
    rw [sum_incrAt _ _ _ hidx]
    omega

theorem foldl_stackPair_histTotal (ctx : StackCtx) (i L : ℕ) (l : List ℕ)
    (st : StackSt)
    (hb : ∀ a ∈ l,
      histIndex ctx.drizzleFactor (ctx.shiftFn i a).1 (ctx.shiftFn i a).2.1 < L) :
    histTotal L (l.foldl (stackPair ctx i) st) = histTotal L st + l.length := by
  induction l generalizing st with
  | nil => simp
  | cons a t ih =>
    simp only [List.foldl_cons, List.length_cons]
    rw [ih _ fun a' ha' => hb a' (List.mem_cons_of_mem _ ha'),
      stackPair_histTotal ctx i a L st (hb a (List.mem_cons_self a t))]
    omega

theorem stack_loop_histTotal (ctx : StackCtx) (L m : ℕ)
    (hb : ∀ i < m, ∀ a ∈ ctx.usedAPs i,
      histIndex ctx.drizzleFactor (ctx.shiftFn i a).1 (ctx.shiftFn i a).2.1 < L) :
    histTotal L ((List.range m).foldl (stackFrame ctx) initialStackSt) =
      ∑ i ∈ Finset.range m, (ctx.usedAPs i).length := by
  induction m with
  | zero => simp [histTotal, initialStackSt]
  | succ m ih =>
    rw [List.range_succ, List.foldl_append, Finset.sum_range_succ]
    simp only [List.foldl_cons, List.foldl_nil]
    have hsf : ∀ st : StackSt,
        histTotal L (stackFrame ctx st m) = histTotal L st + (ctx.usedAPs m).length :=
      fun st => foldl_stackPair_histTotal ctx m L _ st (hb m (by omega))
    rw [hsf, ih fun i hi => hb i (by omega)]

/-- Claim C5: at the end of the stacking loop, the sum over all bins of the
shift histogram plus the shift failure counter equals the number of
(frame, alignment point) pairs evaluated, the sum over all frames of
|used_alignment_points[i]|; each evaluated pair increments exactly one of
the two.  The shift bounds guarantee every histogram increment lands inside
the array of length 2 * search_width * drizzle_factor. -/
theorem stack_histogram_totals (ctx : StackCtx)
    (hD : 1 ≤ ctx.drizzleFactor) (hsw : 1 ≤ ctx.searchWidth)
    (hshift : ∀ i < ctx.numFrames, ∀ a ∈ ctx.usedAPs i,
      |(ctx.shiftFn i a).1| ≤ (ctx.searchWidth : ℚ) ∧
      |(ctx.shiftFn i a).2.1| ≤ (ctx.searchWidth : ℚ)) :
    (∑ r ∈ Finset.range (2 * ctx.searchWidth * ctx.drizzleFactor),
        (stack_frames_loop ctx).shift_distribution r) +
      (stack_frames_loop ctx).shift_failure_counter =
    ∑ i ∈ Finset.range ctx.numFrames, (ctx.usedAPs i).length := by
  have h := stack_loop_histTotal ctx (2 * ctx.searchWidth * ctx.drizzleFactor)
    ctx.numFrames fun i hi a ha =>
      histIndex_lt ctx.drizzleFactor ctx.searchWidth _ _ hD hsw
        (hshift i hi a ha).1 (hshift i hi a ha).2
  unfold stack_frames_loop
  unfold histTotal at h
  exact h

theorem stack_histogram_totals_witness :
    ((1 : ℕ) ≤ ctxFail.drizzleFactor ∧ (1 : ℕ) ≤ ctxFail.searchWidth) ∧
    (∑ r ∈ Finset.range (2 * ctxFail.searchWidth * ctxFail.drizzleFactor),
        (stack_frames_loop ctxFail).shift_distribution r) +
      (stack_frames_loop ctxFail).shift_failure_counter =
    ∑ i ∈ Finset.range ctxFail.numFrames, (ctxFail.usedAPs i).length :=
  ⟨⟨by decide, by decide⟩,
    stack_histogram_totals ctxFail (by decide) (by decide) (by
      intro i hi a ha
      constructor <;> simp [ctxFail])⟩

/-!
## Buffer accumulation (remap_rigid and the stacking loop)
-/

theorem clip_cond_iff (a b bound : ℤ) (u : ℕ) :
    (clipLowTarget a ≤ (u : ℤ) ∧
      (u : ℤ) < clipLowTarget a + clipHighSource b bound - clipLowSource a) ↔
    (0 ≤ (u : ℤ) + a ∧ (u : ℤ) + a < b ∧ (u : ℤ) + a < bound) := by
  unfold clipLowTarget clipHighSource clipLowSource
  split_ifs <;> omega

theorem clip_index_eq (a : ℤ) (u : ℕ) :
    (u : ℤ) - clipLowTarget a + clipLowSource a = (u : ℤ) + a := by
  unfold clipLowTarget clipLowSource
  split_ifs <;> ring

theorem remap_rigid_buffer (frame_size_y frame_size_x : ℕ) (frame buf : ℕ → ℕ → ℚ)
    (shift_y shift_x : ℤ) (y_low y_high x_low x_high : ℕ)
    (b1 b2 b3 b4 u v : ℕ) :
    (remap_rigid frame_size_y frame_size_x frame buf shift_y shift_x
        y_low y_high x_low x_high b1 b2 b3 b4).buffer u v =
      buf u v + remapContrib frame_size_y frame_size_x frame shift_y shift_x
        y_low y_high x_low x_high u v := by
  unfold remap_rigid remapContrib
  have hiffy := clip_cond_iff ((y_low : ℤ) + shift_y) ((y_high : ℤ) + shift_y)
    (frame_size_y : ℤ) u
  have hiffx := clip_cond_iff ((x_low : ℤ) + shift_x) ((x_high : ℤ) + shift_x)
    (frame_size_x : ℤ) v
  have hidxy := clip_index_eq ((y_low : ℤ) + shift_y) u
  have hidxx := clip_index_eq ((x_low : ℤ) + shift_x) v
  simp only []
  split_ifs with h1 h2 h2
  · rw [hidxy, hidxx]
    have : (u : ℤ) + y_low + shift_y = (u : ℤ) + ((y_low : ℤ) + shift_y) := by ring
    rw [this]
    have : (v : ℤ) + x_low + shift_x = (v : ℤ) + ((x_low : ℤ) + shift_x) := by ring
    rw [this]
  · exfalso
    apply h2
    obtain ⟨hy1, hy2, hx1, hx2⟩ := h1
    have hy := hiffy.mp ⟨hy1, hy2⟩
    have hx := hiffx.mp ⟨hx1, hx2⟩
    refine ⟨by omega, by omega, by omega, by omega, by omega, by omega⟩
  · exfalso
    apply h1
    obtain ⟨hy1, hy2, hy3, hx1, hx2, hx3⟩ := h2
    have hy := hiffy.mpr ⟨by omega, by omega, by omega⟩
    have hx := hiffx.mpr ⟨by omega, by omega, by omega⟩
    exact ⟨hy.1, hy.2, hx.1, hx.2⟩
  · rw [add_zero]

theorem stackPair_buffers (ctx : StackCtx) (i : ℕ) (st : StackSt) (a b u v : ℕ) :
    (stackPair ctx i st a).buffers b u v =
      st.buffers b u v + if b = a then stackContrib ctx i a u v else 0 := by
  unfold stackPair stackContrib stackPairRemap
  by_cases hb : b = a
  · subst hb
    simp only [if_pos rfl]
    exact remap_rigid_buffer _ _ _ _ _ _ _ _ _ _ _ _ _ _ u v
  · simp [hb]

theorem foldl_stackPair_buffers (ctx : StackCtx) (i : ℕ) (l : List ℕ)
    (st : StackSt) (b u v : ℕ) :
    (l.foldl (stackPair ctx i) st).buffers b u v =
      st.buffers b u v + (l.count b : ℚ) * stackContrib ctx i b u v := by
  induction l generalizing st with
  | nil => simp
  | cons a t ih =>
    simp only [List.foldl_cons]
    rw [ih, stackPair_buffers, List.count_cons]
    by_cases hb : b = a
    · subst hb
      simp only [if_pos rfl, beq_self_eq_true, if_true]
      push_cast
      ring
    · have hba : (a == b) = false := by
        simp [beq_iff_eq]
        omega
      simp [hb, hba]

theorem stack_loop_buffers (ctx : StackCtx) (m b u v : ℕ) :
    ((List.range m).foldl (stackFrame ctx) initialStackSt).buffers b u v =
      ∑ i ∈ Finset.range m, ((ctx.usedAPs i).count b : ℚ) * stackContrib ctx i b u v := by
  induction m with
  | zero => simp [initialStackSt]
  | succ m ih =>
    rw [List.range_succ, List.foldl_append, Finset.sum_range_succ]
    simp only [List.foldl_cons, List.foldl_nil]
    have hsf : ∀ st : StackSt, (stackFrame ctx st m).buffers b u v =
        st.buffers b u v + ((ctx.usedAPs m).count b : ℚ) * stackContrib ctx m b u v :=
      fun st => foldl_stackPair_buffers ctx m _ st b u v
    rw [hsf, ih]

/-- Claim C1 (amended): when the local-shift call for a (frame, AP) pair
returns success = false, only shift_failure_counter is incremented and the
histogram is untouched, but the patch is still accumulated into that AP's
stacking buffer by the unconditional remap_rigid call; consequently at the
end of the stacking loop each AP buffer equals the sum of the shifted
patches of all evaluated frames, successes and failures alike.  The
remapWellFormed hypothesis delimits the domain on which the pointwise model
of the numpy slice addition is exact. -/
theorem stack_failed_shift_still_accumulates (ctx : StackCtx)
    (i a b u v : ℕ) (st : StackSt) (shift_y shift_x : ℚ)
    (hsf : ctx.shiftFn i a = (shift_y, shift_x, false))
    (hwf : ∀ i' < ctx.numFrames, ∀ a' ∈ ctx.usedAPs i', remapWellFormed ctx i' a') :
    (stackPair ctx i st a).shift_distribution = st.shift_distribution ∧
    (stackPair ctx i st a).shift_failure_counter = st.shift_failure_counter + 1 ∧
    (stackPair ctx i st a).buffers a u v =
      st.buffers a u v + stackContrib ctx i a u v ∧
    (stack_frames_loop ctx).buffers b u v =
      ∑ i' ∈ Finset.range ctx.numFrames,
        ((ctx.usedAPs i').count b : ℚ) * stackContrib ctx i' b u v := by
  refine ⟨?_, ?_, ?_, ?_⟩
  · simp [stackPair, hsf]
  · simp [stackPair, hsf]
  · rw [stackPair_buffers, if_pos rfl]
  · exact stack_loop_buffers ctx ctx.numFrames b u v

theorem roundHalfEven_zero : roundHalfEven 0 = 0 := by
  norm_num [roundHalfEven]

theorem ctxFail_tsy : totalShiftY ctxFail 0 0 = 0 := by
  norm_num [totalShiftY, ctxFail, roundHalfEven_zero]

theorem ctxFail_tsx : totalShiftX ctxFail 0 0 = 0 := by
  norm_num [totalShiftX, ctxFail, roundHalfEven_zero]

theorem ctxFail_buffer : (stack_frames_loop ctxFail).buffers 0 0 0 = 7 := by
  have h1 : (List.range ctxFail.numFrames) = [0] := rfl
  unfold stack_frames_loop
  rw [h1]
  simp only [List.foldl_cons, List.foldl_nil]
  unfold stackFrame
  have h2 : ctxFail.usedAPs 0 = [0] := rfl
  rw [h2]
  simp only [List.foldl_cons, List.foldl_nil]
  unfold stackPair
  simp only [if_true, eq_self_iff_true]
  unfold stackPairRemap
  rw [remap_rigid_buffer]
  rw [ctxFail_tsy, ctxFail_tsx]
  norm_num [remapContrib, ctxFail, initialStackSt]

theorem stack_failed_shift_counterexample :
    (ctxFail.shiftFn 0 0).2.2 = false ∧
    (stack_frames_loop ctxFail).shift_failure_counter = 1 ∧
    (stack_frames_loop ctxFail).shift_distribution 0 = 0 ∧
    (stack_frames_loop ctxFail).buffers 0 0 0 = 7 ∧
    (stack_frames_loop ctxFail).buffers 0 0 0 ≠ 0 :=
  ⟨rfl, rfl, rfl, ctxFail_buffer, by rw [ctxFail_buffer]; norm_num⟩

theorem ctxFail_wf : ∀ i' < ctxFail.numFrames, ∀ a' ∈ ctxFail.usedAPs i',
    remapWellFormed ctxFail i' a' := by
  intro i' hi' a' ha'
  have hi0 : i' = 0 := by
    have : ctxFail.numFrames = 1 := rfl
    omega
  have ha0 : a' = 0 := by
    have : ctxFail.usedAPs i' = [0] := rfl
    rw [this] at ha'
    simpa using ha'
  subst hi0; subst ha0
  refine ⟨?_, ?_, ?_, ?_⟩
  · rw [ctxFail_tsy]; norm_num [ctxFail]
  · rw [ctxFail_tsy]; norm_num [ctxFail]
  · rw [ctxFail_tsx]; norm_num [ctxFail]
  · rw [ctxFail_tsx]; norm_num [ctxFail]

theorem stack_failed_shift_still_accumulates_witness :
    (ctxFail.shiftFn 0 0 = ((0 : ℚ), (0 : ℚ), false)) ∧
    ((stackPair ctxFail 0 initialStackSt 0).shift_distribution =
        initialStackSt.shift_distribution ∧
      (stackPair ctxFail 0 initialStackSt 0).shift_failure_counter =
        initialStackSt.shift_failure_counter + 1 ∧
      (stackPair ctxFail 0 initialStackSt 0).buffers 0 0 0 =
        initialStackSt.buffers 0 0 0 + stackContrib ctxFail 0 0 0 0 ∧
      (stack_frames_loop ctxFail).buffers 0 0 0 =
        ∑ i' ∈ Finset.range ctxFail.numFrames,
          ((ctxFail.usedAPs i').count 0 : ℚ) * stackContrib ctxFail i' 0 0 0) :=
  ⟨rfl, stack_failed_shift_still_accumulates ctxFail 0 0 0 0 0 initialStackSt 0 0 rfl
    ctxFail_wf⟩

/-!
## Patch weights: nonnegativity, ramp shape, weight-sum lower bound
-/

theorem one_dim_weight_mem_nonneg (patch_low patch_high box_center : ℕ)
    (extend_low extend_high : Bool) :
    ∀ q ∈ one_dim_weight patch_low patch_high box_center extend_low extend_high,
      0 ≤ q := by
  intro q hq
  unfold one_dim_weight at hq
  rcases List.mem_append.mp hq with h | h
  · split_ifs at h
    · rw [List.mem_replicate] at h
      rw [h.2]
      norm_num
    · obtain ⟨j, hj, rfl⟩ := List.mem_map.mp h
      show 0 ≤ ((j : ℚ) + 1) / (((box_center - patch_low : ℕ) : ℚ) + 1)
      apply div_nonneg (by positivity) (by positivity)
  · split_ifs at h
    · rw [List.mem_replicate] at h
      rw [h.2]
      norm_num
    · obtain ⟨j, hj, rfl⟩ := List.mem_map.mp h
      rw [List.mem_range] at hj
      show 0 ≤ (((patch_high - box_center : ℕ) : ℚ) - (j : ℚ)) /
        ((patch_high - box_center : ℕ) : ℚ)
      apply div_nonneg _ (by positivity)
      have hc : (j : ℚ) ≤ ((patch_high - box_center : ℕ) : ℚ) := by
        exact_mod_cast le_of_lt hj
      linarith

theorem getD_nonneg_of_mem (l : List ℚ) (h : ∀ q ∈ l, 0 ≤ q) (i : ℕ) :
    0 ≤ l.getD i 0 := by
  by_cases hi : i < l.length
  · rw [List.getD_eq_getElem _ _ hi]
    exact h _ (List.getElem_mem hi)
  · rw [List.getD_eq_default _ _ (by omega)]

theorem ap_weights_yx_nonneg (dim_y_drizzled dim_x_drizzled : ℕ)
    (ap : AlignmentPointGeom) (i j : ℕ) :
    0 ≤ ap_weights_yx dim_y_drizzled dim_x_drizzled ap i j := by
  unfold ap_weights_yx
  exact le_min
    (getD_nonneg_of_mem _ (one_dim_weight_mem_nonneg _ _ _ _ _) i)
    (getD_nonneg_of_mem _ (one_dim_weight_mem_nonneg _ _ _ _ _) j)

theorem sum_single_frame_weights_ge_aux (dim_y_drizzled dim_x_drizzled : ℕ)
    (stack_size : ℕ) (aps : List AlignmentPointGeom) (acc : ℕ → ℕ → ℚ)
    (hacc : ∀ y x, weight_init ≤ acc y x) :
    ∀ y x, weight_init ≤
      (aps.foldl
        (fun acc ap => fun y x =>
          if ap.patch_y_low_drizzled ≤ y ∧ y < ap.patch_y_high_drizzled ∧
             ap.patch_x_low_drizzled ≤ x ∧ x < ap.patch_x_high_drizzled then
            acc y x + (stack_size : ℚ) *
              ap_weights_yx dim_y_drizzled dim_x_drizzled ap
                (y - ap.patch_y_low_drizzled) (x - ap.patch_x_low_drizzled)
          else acc y x)
        acc) y x := by
  induction aps generalizing acc with
  | nil => exact hacc
  | cons ap t ih =>
    simp only [List.foldl_cons]
    apply ih
    intro y x
    split
    · have h1 := hacc y x
      have h2 : (0 : ℚ) ≤ (stack_size : ℚ) *
          ap_weights_yx dim_y_drizzled dim_x_drizzled ap
            (y - ap.patch_y_low_drizzled) (x - ap.patch_x_low_drizzled) :=
        mul_nonneg (by positivity) (ap_weights_yx_nonneg _ _ _ _ _)
      linarith
    · exact hacc y x

/-- Claim C6: the weight-sum buffer is initialized to the positive sentinel
1e-30 everywhere and every alignment-point update adds the non-negative
quantity stack_size * mask, so at every point of the accumulation (any list
of alignment points) and in particular at its end, every entry is at least
1e-30 and strictly positive: the final per-pixel division is total. -/
theorem weight_sum_lower_bound (dim_y_drizzled dim_x_drizzled : ℕ)
    (aps : List AlignmentPointGeom) (stack_size y x : ℕ) :
    weight_init ≤
      sum_single_frame_weights dim_y_drizzled dim_x_drizzled aps stack_size y x ∧
    0 < sum_single_frame_weights dim_y_drizzled dim_x_drizzled aps stack_size y x := by
  have h := sum_single_frame_weights_ge_aux dim_y_drizzled dim_x_drizzled
    stack_size aps (fun _ _ => weight_init) (fun _ _ => le_refl _) y x
  have hpos : (0 : ℚ) < weight_init := by norm_num [weight_init]
  exact ⟨h, lt_of_lt_of_le hpos h⟩

theorem one_dim_weight_length (patch_low patch_high box_center : ℕ)
    (extend_low extend_high : Bool) :
    (one_dim_weight patch_low patch_high box_center extend_low extend_high).length =
      (box_center - patch_low) + (patch_high - box_center) := by
  unfold one_dim_weight
  rw [List.length_append]
  split_ifs <;> simp

theorem one_dim_weight_getD_low (patch_low patch_high box_center : ℕ)
    (extend_low extend_high : Bool) (i : ℕ) (hi : i < box_center - patch_low) :
    (one_dim_weight patch_low patch_high box_center extend_low extend_high).getD i 0 =
      if extend_low then 1
      else ((i : ℚ) + 1) / (((box_center - patch_low : ℕ) : ℚ) + 1) := by
  unfold one_dim_weight
  cases extend_low with
  | true =>
    simp only [if_true]
    rw [List.getD_append _ _ _ _ (by simp [hi]),
      List.getD_eq_getElem _ _ (by simp [hi]), List.getElem_replicate]
  | false =>
    simp only [Bool.false_eq_true, if_false]
    rw [List.getD_append _ _ _ _ (by simp [hi]),
      List.getD_eq_getElem _ _ (by simp [hi]), List.getElem_map, List.getElem_range]

theorem one_dim_weight_getD_high (patch_low patch_high box_center : ℕ)
    (extend_low extend_high : Bool) (i : ℕ) (h1 : box_center - patch_low ≤ i)
    (h2 : i < (box_center - patch_low) + (patch_high - box_center)) :
    (one_dim_weight patch_low patch_high box_center extend_low extend_high).getD i 0 =
      if extend_high then 1
      else (((patch_high - box_center : ℕ) : ℚ) -
          ((i - (box_center - patch_low) : ℕ) : ℚ)) /
        ((patch_high - box_center : ℕ) : ℚ) := by
  unfold one_dim_weight
  have hlen1 : (if extend_low then
      List.replicate (box_center - patch_low) (1 : ℚ)
    else
      (List.range (box_center - patch_low)).map fun (j : ℕ) =>
        ((j : ℚ) + 1) / (((box_center - patch_low : ℕ) : ℚ) + 1)).length =
      box_center - patch_low := by split_ifs <;> simp
  rw [List.getD_append_right _ _ _ _ (by rw [hlen1]; exact h1), hlen1]
  cases extend_high with
  | true =>
    simp only [if_true]
    rw [List.getD_eq_getElem _ _ (by simp; omega), List.getElem_replicate]
  | false =>
    simp only [Bool.false_eq_true, if_false]
    rw [List.getD_eq_getElem _ _ (by simp; omega), List.getElem_map, List.getElem_range]

theorem one_dim_weight_center (patch_low patch_high box_center : ℕ)
    (extend_low extend_high : Bool) (hhi : box_center < patch_high) :
    (one_dim_weight patch_low patch_high box_center extend_low
      extend_high).getD (box_center - patch_low) 0 = 1 := by
  rw [one_dim_weight_getD_high _ _ _ _ _ _ (le_refl _) (by omega)]
  split_ifs
  · rfl
  · rw [Nat.sub_self]
    push_cast
    rw [sub_zero, div_self]
    have : (0 : ℕ) < patch_high - box_center := by omega
    positivity

/-- Claim C7: for an alignment point whose box centre lies strictly inside
the patch interval [patch_low, patch_high): the 1-D weight ramp equals
exactly 1 at index box_center - patch_low, it is monotone non-decreasing up
to that index and monotone non-increasing from it on, a side whose extend
flag is set (the side abutting the drizzled image edge) is the constant 1,
and the 2-D weight mask is the elementwise minimum, not the product, of the
y and x 1-D ramps. -/
theorem one_dim_weight_ramp_spec (patch_low patch_high box_center : ℕ)
    (extend_low extend_high : Bool) (dim_y_drizzled dim_x_drizzled : ℕ)
    (ap : AlignmentPointGeom) (i j : ℕ)
    (hlo : patch_low < box_center) (hhi : box_center < patch_high) :
    (one_dim_weight patch_low patch_high box_center extend_low
        extend_high).getD (box_center - patch_low) 0 = 1 ∧
    (i ≤ j → j ≤ box_center - patch_low →
      (one_dim_weight patch_low patch_high box_center extend_low
          extend_high).getD i 0 ≤
        (one_dim_weight patch_low patch_high box_center extend_low
          extend_high).getD j 0) ∧
    (box_center - patch_low ≤ i → i ≤ j → j < patch_high - patch_low →
      (one_dim_weight patch_low patch_high box_center extend_low
          extend_high).getD j 0 ≤
        (one_dim_weight patch_low patch_high box_center extend_low
          extend_high).getD i 0) ∧
    (extend_low = true → i < box_center - patch_low →
      (one_dim_weight patch_low patch_high box_center extend_low
        extend_high).getD i 0 = 1) ∧
    (extend_high = true → box_center - patch_low ≤ i → i < patch_high - patch_low →
      (one_dim_weight patch_low patch_high box_center extend_low
        extend_high).getD i 0 = 1) ∧
    ap_weights_yx dim_y_drizzled dim_x_drizzled ap i j =
      min ((one_dim_weight ap.patch_y_low_drizzled ap.patch_y_high_drizzled
            ap.y_drizzled (ap.patch_y_low_drizzled == 0)
            (ap.patch_y_high_drizzled == dim_y_drizzled)).getD i 0)
          ((one_dim_weight ap.patch_x_low_drizzled ap.patch_x_high_drizzled
            ap.x_drizzled (ap.patch_x_low_drizzled == 0)
            (ap.patch_x_high_drizzled == dim_x_drizzled)).getD j 0) := by
  have hspan : patch_high - patch_low =
      (box_center - patch_low) + (patch_high - box_center) := by omega
  have hcenter := one_dim_weight_center patch_low patch_high box_center
    extend_low extend_high hhi
  refine ⟨hcenter, ?_, ?_, ?_, ?_, rfl⟩
  · intro hij hj
    rcases Nat.lt_or_ge j (box_center - patch_low) with hjlt | hjge
    · rw [one_dim_weight_getD_low _ _ _ _ _ i (by omega),
        one_dim_weight_getD_low _ _ _ _ _ j hjlt]
      split_ifs
      · exact le_rfl
      · have hcast : (i : ℚ) ≤ (j : ℚ) := by exact_mod_cast hij
        gcongr
    · have hjc : j = box_center - patch_low := by omega
      subst hjc
      rw [hcenter]
      rcases Nat.lt_or_ge i (box_center - patch_low) with hilt | hige
      · rw [one_dim_weight_getD_low _ _ _ _ _ i hilt]
        split_ifs
        · exact le_rfl
        · rw [div_le_one (by positivity)]
          have : (i : ℚ) + 1 ≤ ((box_center - patch_low : ℕ) : ℚ) := by
            exact_mod_cast hilt
          linarith
      · have hic : i = box_center - patch_low := by omega
        subst hic
        rw [hcenter]
  · intro hi hij hj
    rw [one_dim_weight_getD_high _ _ _ _ _ i hi (by omega),
      one_dim_weight_getD_high _ _ _ _ _ j (by omega) (by omega)]
    split_ifs
    · exact le_rfl
    · have hcast : ((i - (box_center - patch_low) : ℕ) : ℚ) ≤
          ((j - (box_center - patch_low) : ℕ) : ℚ) := by
        exact_mod_cast Nat.sub_le_sub_right hij _
      gcongr
  · intro hel hi
    rw [one_dim_weight_getD_low _ _ _ _ _ i hi, if_pos hel]
  · intro heh hi1 hi2
    rw [one_dim_weight_getD_high _ _ _ _ _ i hi1 (by omega), if_pos heh]

/-- Example alignment point geometry used by witnesses. -/
def apGeomEx : AlignmentPointGeom :=
  { patch_y_low_drizzled := 0
    patch_y_high_drizzled := 4
    y_drizzled := 2
    patch_x_low_drizzled := 0
    patch_x_high_drizzled := 4
    x_drizzled := 2 }

theorem one_dim_weight_ramp_spec_witness :
    ((1 : ℕ) < 2 ∧ (2 : ℕ) < 4) ∧
    ((one_dim_weight 1 4 2 false false).getD (2 - 1) 0 = 1 ∧
    ((0 : ℕ) ≤ 1 → (1 : ℕ) ≤ 2 - 1 →
      (one_dim_weight 1 4 2 false false).getD 0 0 ≤
        (one_dim_weight 1 4 2 false false).getD 1 0) ∧
    (2 - 1 ≤ (0 : ℕ) → (0 : ℕ) ≤ 1 → (1 : ℕ) < 4 - 1 →
      (one_dim_weight 1 4 2 false false).getD 1 0 ≤
        (one_dim_weight 1 4 2 false false).getD 0 0) ∧
    (false = true → (0 : ℕ) < 2 - 1 →
      (one_dim_weight 1 4 2 false false).getD 0 0 = 1) ∧
    (false = true → 2 - 1 ≤ (0 : ℕ) → (0 : ℕ) < 4 - 1 →
      (one_dim_weight 1 4 2 false false).getD 0 0 = 1) ∧
    ap_weights_yx 8 8 apGeomEx 0 1 =
      min ((one_dim_weight apGeomEx.patch_y_low_drizzled
            apGeomEx.patch_y_high_drizzled apGeomEx.y_drizzled
            (apGeomEx.patch_y_low_drizzled == 0)
            (apGeomEx.patch_y_high_drizzled == 8)).getD 0 0)
          ((one_dim_weight apGeomEx.patch_x_low_drizzled
            apGeomEx.patch_x_high_drizzled apGeomEx.x_drizzled
            (apGeomEx.patch_x_low_drizzled == 0)
            (apGeomEx.patch_x_high_drizzled == 8)).getD 1 0)) :=
  ⟨⟨by norm_num, by norm_num⟩,
    one_dim_weight_ramp_spec 1 4 2 false false 8 8 apGeomEx 0 1
      (by norm_num) (by norm_num)⟩

/-!
## Rank engine proofs
-/

instance (ranks : List ℚ) : IsTotal ℕ (rankRel ranks) := by
  constructor
  intro i j
  unfold rankRel
  rcases lt_trichotomy (ranks.getD i 0) (ranks.getD j 0) with h | h | h
  · right; left; exact h
  · rcases Nat.le_total i j with hle | hle
    · left; right; exact ⟨h, hle⟩
    · right; right; exact ⟨h.symm, hle⟩
  · left; left; exact h

instance (ranks : List ℚ) : IsTrans ℕ (rankRel ranks) := by
  constructor
  intro i j k hij hjk
  unfold rankRel at *
  rcases hij with h1 | ⟨h1, h1'⟩ <;> rcases hjk with h2 | ⟨h2, h2'⟩
  · left; exact lt_trans h2 h1
  · left; rw [← h2]; exact h1
  · left; rw [h1]; exact h2
  · right; exact ⟨h1.trans h2, h1'.trans h2'⟩

theorem sortIndicesDesc_perm (ranks : List ℚ) (l : List ℕ) :
    (sortIndicesDesc ranks l).Perm l :=
  List.perm_insertionSort _ l

theorem sortIndicesDesc_head_max (ranks : List ℚ) (l : List ℕ) (j : ℕ)
    (hj : j ∈ sortIndicesDesc ranks l) :
    ranks.getD j 0 ≤ ranks.getD ((sortIndicesDesc ranks l).headD 0) 0 := by
  have hs : List.Sorted (rankRel ranks) (sortIndicesDesc ranks l) :=
    List.sorted_insertionSort _ l
  rcases hh : sortIndicesDesc ranks l with _ | ⟨a, t⟩
  · rw [hh] at hj; simp at hj
  · rw [hh] at hj hs
    simp only [List.headD_cons]
    rcases List.mem_cons.mp hj with rfl | hjt
    · exact le_rfl
    · have hr := List.rel_of_sorted_cons hs _ hjt
      unfold rankRel at hr
      rcases hr with h1 | ⟨h1, _⟩
      · exact le_of_lt h1
      · exact le_of_eq h1.symm

theorem mem_windowBest (ranks : List ℚ) (k w s i : ℕ)
    (h : i ∈ windowBest ranks k w s) : s ≤ i ∧ i < s + w := by
  unfold windowBest at h
  have h2 := List.mem_of_mem_take h
  have h3 := (sortIndicesDesc_perm ranks (List.range' s w)).mem_iff.mp h2
  exact List.mem_range'_1.mp h3

theorem length_windowBest (ranks : List ℚ) (k w s : ℕ) :
    (windowBest ranks k w s).length = min k w := by
  unfold windowBest sortIndicesDesc
  simp [List.length_take, List.length_insertionSort]

theorem windowTopSum_pos (ranks : List ℚ) (k w s : ℕ) (hk : 1 ≤ k) (hkw : k ≤ w)
    (hlen : s + w ≤ ranks.length) (hpos : ∀ q ∈ ranks, 0 < q) :
    0 < windowTopSum ranks k w s := by
  unfold windowTopSum ranksSum
  apply List.sum_pos
  · intro q hq
    obtain ⟨i, hi, rfl⟩ := List.mem_map.mp hq
    have hmem := mem_windowBest ranks k w s i hi
    have hilt : i < ranks.length := by omega
    rw [List.getD_eq_getElem _ _ hilt]
    exact hpos _ (List.getElem_mem hilt)
  · apply List.ne_nil_of_length_pos
    rw [List.length_map, length_windowBest]
    omega

theorem foldl_stepBL_spec (ranks : List ℚ) (k w : ℕ) (m : ℕ) (hm : 1 ≤ m)
    (h0 : 0 < windowTopSum ranks k w 0) :
    ∃ s₀, s₀ < m ∧
      (List.range m).foldl (stepBL ranks k w) (0, []) =
        (windowTopSum ranks k w s₀, windowBest ranks k w s₀) ∧
      (∀ s < m, windowTopSum ranks k w s ≤ windowTopSum ranks k w s₀) ∧
      (∀ s < s₀, windowTopSum ranks k w s < windowTopSum ranks k w s₀) := by
  induction m with
  | zero => omega
  | succ m ih =>
    rcases Nat.eq_zero_or_pos m with hm0 | hm1
    · subst hm0
      refine ⟨0, by omega, ?_, ?_, ?_⟩
      · show (List.range 1).foldl (stepBL ranks k w) (0, []) = _
        have : List.range 1 = [0] := rfl
        rw [this]
        simp only [List.foldl_cons, List.foldl_nil]
        unfold stepBL windowTopSum
        rw [if_pos]
        exact h0
      · intro s hs
        have : s = 0 := by omega
        subst this
        exact le_rfl
      · intro s hs
        omega
    · obtain ⟨s₀, hs₀m, heq, hmax, hleast⟩ := ih hm1
      rw [List.range_succ, List.foldl_append]
      rw [heq]
      simp only [List.foldl_cons, List.foldl_nil]
      unfold stepBL
      by_cases hcmp : windowTopSum ranks k w s₀ < ranksSum ranks (windowBest ranks k w m)
      · rw [if_pos hcmp]
        refine ⟨m, by omega, rfl, ?_, ?_⟩
        · intro s hs
          rcases Nat.lt_or_ge s m with hsm | hsm
          · exact le_of_lt (lt_of_le_of_lt (hmax s hsm) hcmp)
          · have : s = m := by omega
            subst this
            exact le_rfl
        · intro s hs
          exact lt_of_le_of_lt (hmax s (by omega)) hcmp
      · rw [if_neg hcmp]
        push_neg at hcmp
        refine ⟨s₀, by omega, rfl, ?_, hleast⟩
        intro s hs
        rcases Nat.lt_or_ge s m with hsm | hsm
        · exact hmax s hsm
        · have : s = m := by omega
          subst this
          exact hcmp

theorem bestLoop_spec (ranks : List ℚ) (k w n : ℕ) (hk : 1 ≤ k) (hkw : k ≤ w)
    (hwn : w ≤ n) (hlen : ranks.length = n) (hpos : ∀ q ∈ ranks, 0 < q) :
    ∃ s₀, s₀ + w ≤ n ∧
      bestLoop ranks k w n = (windowTopSum ranks k w s₀, windowBest ranks k w s₀) ∧
      (∀ s, s + w ≤ n → windowTopSum ranks k w s ≤ windowTopSum ranks k w s₀) ∧
      (∀ s < s₀, windowTopSum ranks k w s < windowTopSum ranks k w s₀) := by
  have h0 : 0 < windowTopSum ranks k w 0 :=
    windowTopSum_pos ranks k w 0 hk hkw (by omega) hpos
  obtain ⟨s₀, hs₀, heq, hmax, hleast⟩ :=
    foldl_stepBL_spec ranks k w (n - w + 1) (by omega) h0
  exact ⟨s₀, by omega, heq, fun s hs => hmax s (by omega), hleast⟩

theorem global_take_pos (st : RankState) (k : ℕ) (hk : 1 ≤ k)
    (hlen : st.frame_ranks.length = st.number)
    (hpos : ∀ q ∈ st.frame_ranks, 0 < q)
    (hq : ∀ i ∈ st.quality_sorted_indices, i < st.number)
    (hqlen : k ≤ st.quality_sorted_indices.length) :
    0 < ranksSum st.frame_ranks (st.quality_sorted_indices.take k) := by
  unfold ranksSum
  apply List.sum_pos
  · intro q hq'
    obtain ⟨i, hi, rfl⟩ := List.mem_map.mp hq'
    have hmem : i ∈ st.quality_sorted_indices := List.mem_of_mem_take hi
    have hilt : i < st.frame_ranks.length := by
      rw [hlen]; exact hq i hmem
    rw [List.getD_eq_getElem _ _ hilt]
    exact hpos _ (List.getElem_mem hilt)
  · apply List.ne_nil_of_length_pos
    rw [List.length_map, List.length_take]
    omega

theorem find_best_frames_normal (st : RankState) (k w : ℕ)
    (hk : 1 ≤ k) (hkw : k ≤ w) (hwn : w ≤ st.number)
    (hlen : st.frame_ranks.length = st.number)
    (hpos : ∀ q ∈ st.frame_ranks, 0 < q)
    (hq : ∀ i ∈ st.quality_sorted_indices, i < st.number)
    (hqlen : k ≤ st.quality_sorted_indices.length) :
    ∃ s₀, s₀ + w ≤ st.number ∧
      find_best_frames st k w = Except.ok (windowBest st.frame_ranks k w s₀,
        pyRound1 (100 *
          (ranksSum st.frame_ranks (st.quality_sorted_indices.take k) -
            windowTopSum st.frame_ranks k w s₀) /
          ranksSum st.frame_ranks (st.quality_sorted_indices.take k)),
        pyRound1 (100 * listMean (windowBest st.frame_ranks k w s₀) / st.number),
        st) ∧
      (∀ s, s + w ≤ st.number →
        windowTopSum st.frame_ranks k w s ≤ windowTopSum st.frame_ranks k w s₀) ∧
      (∀ s < s₀, windowTopSum st.frame_ranks k w s < windowTopSum st.frame_ranks k w s₀) := by
  obtain ⟨s₀, hs₀, heq, hmax, hleast⟩ :=
    bestLoop_spec st.frame_ranks k w st.number hk hkw hwn hlen hpos
  have hg : 0 < ranksSum st.frame_ranks (st.quality_sorted_indices.take k) :=
    global_take_pos st k hk hlen hpos hq hqlen
  have hbne : windowBest st.frame_ranks k w s₀ ≠ [] := by
    apply List.ne_nil_of_length_pos
    rw [length_windowBest]
    omega
  refine ⟨s₀, hs₀, ?_, hmax, hleast⟩
  unfold find_best_frames
  rw [if_neg (by omega), if_neg (by omega), if_neg (by exact ne_of_gt hg), heq]
  rw [if_neg hbne]

/-- Claim C4: for every valid pair (k, window) with 1 ≤ k ≤ window ≤ N and
every positive rank vector (scores lie in (0, 1] by the data model), the
rank sum of the k indices returned by find_best_frames is at least the sum
of the top-k scores of every other contiguous window of that size, and among
the windows attaining the maximum the one with the smallest start index is
chosen (every earlier window has a strictly smaller top-k sum). -/
theorem find_best_frames_window_best (st : RankState) (k w : ℕ)
    (hk : 1 ≤ k) (hkw : k ≤ w) (hwn : w ≤ st.number)
    (hlen : st.frame_ranks.length = st.number)
    (hpos : ∀ q ∈ st.frame_ranks, 0 < q)
    (hq : ∀ i ∈ st.quality_sorted_indices, i < st.number)
    (hqlen : k ≤ st.quality_sorted_indices.length) :
    ∃ inds ql cog s₀,
      find_best_frames st k w = Except.ok (inds, ql, cog, st) ∧
      inds = windowBest st.frame_ranks k w s₀ ∧
      s₀ + w ≤ st.number ∧
      ranksSum st.frame_ranks inds = windowTopSum st.frame_ranks k w s₀ ∧
      (∀ s, s + w ≤ st.number →
        windowTopSum st.frame_ranks k w s ≤ ranksSum st.frame_ranks inds) ∧
      (∀ s < s₀, windowTopSum st.frame_ranks k w s < ranksSum st.frame_ranks inds) := by
  obtain ⟨s₀, hs₀, heq, hmax, hleast⟩ :=
    find_best_frames_normal st k w hk hkw hwn hlen hpos hq hqlen
  refine ⟨windowBest st.frame_ranks k w s₀, _, _, s₀, heq, rfl, hs₀, rfl, ?_, ?_⟩
  · intro s hs
    exact hmax s hs
  · intro s hs
    exact hleast s hs

theorem roundHalfEven_intCast (z : ℤ) : roundHalfEven (z : ℚ) = z := by
  unfold roundHalfEven
  rw [Int.floor_intCast, sub_self]
  norm_num

theorem pyRound1_intCast (z : ℤ) : pyRound1 (z : ℚ) = (z : ℚ) := by
  unfold pyRound1
  have h : ((z : ℚ) * 10) = ((z * 10 : ℤ) : ℚ) := by push_cast; ring
  rw [h, roundHalfEven_intCast]
  push_cast
  ring

theorem fbf_s4_eval : find_best_frames stS4 2 3 = Except.ok ([3, 1], 0, 40, stS4) := by
  have hfr : stS4.frame_ranks = scoresS4 := rfl
  have hnum : stS4.number = 5 := rfl
  have hqsi : stS4.quality_sorted_indices = [3, 1, 4, 2, 0] := by
    norm_num [stS4, mkRankState, scoresS4, sortIndicesDesc, rankRel,
      List.insertionSort, List.orderedInsert]
  have hbl : bestLoop scoresS4 2 3 5 = (19/10, [3, 1]) := by
    have e1 : List.range (5 - 3 + 1) = [0, 1, 2] := rfl
    have e2 : List.range' 0 3 = [0, 1, 2] := rfl
    have e3 : List.range' 1 3 = [1, 2, 3] := rfl
    have e4 : List.range' 2 3 = [2, 3, 4] := rfl
    unfold bestLoop
    rw [e1]
    norm_num [stepBL, windowBest, windowTopSum, ranksSum, sortIndicesDesc, rankRel,
      List.insertionSort, List.orderedInsert, scoresS4, e2, e3, e4]
  have hg : ranksSum scoresS4 ([3, 1, 4, 2, 0].take 2) = 19/10 := by
    norm_num [ranksSum, scoresS4]
  have h0 : pyRound1 (100 * (19/10 - 19/10) / (19/10)) = 0 := by
    have : (100 : ℚ) * (19/10 - 19/10) / (19/10) = ((0 : ℤ) : ℚ) := by norm_num
    rw [this, pyRound1_intCast]
    norm_num
  have h40 : pyRound1 (100 * listMean [3, 1] / 5) = 40 := by
    have : (100 : ℚ) * listMean [3, 1] / 5 = ((40 : ℤ) : ℚ) := by
      norm_num [listMean]
    rw [this, pyRound1_intCast]
    norm_num
  unfold find_best_frames
  rw [hfr, hnum, hqsi, hbl, hg]
  rw [if_neg (by norm_num), if_neg (by norm_num), if_neg (by norm_num)]
  simp only []
  rw [if_neg (by simp)]
  rw [h0]
  norm_num [h40]

/-- Claim C2 (amended): on the S4 realization (N = 5, normalized scores
[0.2, 0.9, 0.5, 1.0, 0.7]), find_best_frames(2, 3) selects the window
[1, 4) and returns the indices [3, 1], quality_loss_percent 0.0 and
centre-of-gravity 40.0 (not the window [2, 5) with indices {3, 4},
loss 10.5 and cog 70.0 asserted by the specification). -/
theorem rank_find_best_frames_s4 :
    find_best_frames stS4 2 3 = Except.ok ([3, 1], 0, 40, stS4) :=
  fbf_s4_eval

/-- Claim C2, counterexample to the claim as stated: the call returns the
indices [3, 1] with quality loss 0.0 and cog 40.0; the index 4 claimed to
be returned is not among them, and the claimed loss 10.5 and cog 70.0
differ from the returned values. -/
theorem rank_find_best_frames_s4_counterexample :
    find_best_frames stS4 2 3 = Except.ok ([3, 1], 0, 40, stS4) ∧
    (4 : ℕ) ∉ ([3, 1] : List ℕ) ∧ (0 : ℚ) ≠ 21/2 ∧ (40 : ℚ) ≠ 70 :=
  ⟨fbf_s4_eval, by decide, by norm_num, by norm_num⟩

theorem sortIndicesDesc_length (ranks : List ℚ) (l : List ℕ) :
    (sortIndicesDesc ranks l).length = l.length :=
  List.length_insertionSort _ l

theorem stS4_ranks_pos : ∀ q ∈ stS4.frame_ranks, 0 < q := by
  intro q hq
  have h : stS4.frame_ranks = scoresS4 := rfl
  rw [h] at hq
  unfold scoresS4 at hq
  fin_cases hq <;> norm_num

theorem stS4_qsi_eq :
    stS4.quality_sorted_indices = sortIndicesDesc scoresS4 (List.range 5) := rfl

theorem stS4_qsi_lt : ∀ i ∈ stS4.quality_sorted_indices, i < stS4.number := by
  intro i hi
  rw [stS4_qsi_eq] at hi
  have h := (sortIndicesDesc_perm _ _).mem_iff.mp hi
  exact List.mem_range.mp h

theorem stS4_qsi_len : stS4.quality_sorted_indices.length = 5 := by
  rw [stS4_qsi_eq, sortIndicesDesc_length, List.length_range]

theorem find_best_frames_window_best_witness :
    ((1 : ℕ) ≤ 2 ∧ (2 : ℕ) ≤ 3 ∧ (3 : ℕ) ≤ stS4.number) ∧
    ∃ inds ql cog s₀,
      find_best_frames stS4 2 3 = Except.ok (inds, ql, cog, stS4) ∧
      inds = windowBest stS4.frame_ranks 2 3 s₀ ∧
      s₀ + 3 ≤ stS4.number ∧
      ranksSum stS4.frame_ranks inds = windowTopSum stS4.frame_ranks 2 3 s₀ ∧
      (∀ s, s + 3 ≤ stS4.number →
        windowTopSum stS4.frame_ranks 2 3 s ≤ ranksSum stS4.frame_ranks inds) ∧
      (∀ s < s₀, windowTopSum stS4.frame_ranks 2 3 s < ranksSum stS4.frame_ranks inds) :=
  ⟨⟨by norm_num, by norm_num, by decide⟩,
    find_best_frames_window_best stS4 2 3 (by norm_num) (by norm_num) (by decide)
      rfl stS4_ranks_pos stS4_qsi_lt (by rw [stS4_qsi_len]; omega)⟩

/-- Claim C9 (amended): find_best_frames raises ArgumentError exactly when
k > window or window > N; under the strengthened precondition
1 ≤ k ≤ window ≤ N (with a well-formed positive rank table) it returns
normally with the rank-engine state unchanged.  For k = 0 the precondition
k ≤ window ≤ N is met but the quality-loss division raises
ZeroDivisionError instead of returning. -/
theorem find_best_frames_argument_error_iff (st : RankState) (k w : ℕ)
    (hlen : st.frame_ranks.length = st.number)
    (hpos : ∀ q ∈ st.frame_ranks, 0 < q)
    (hq : ∀ i ∈ st.quality_sorted_indices, i < st.number)
    (hqlen : st.quality_sorted_indices.length = st.number) :
    (find_best_frames st k w = Except.error PyErr.argumentError ↔
      (w < k ∨ st.number < w)) ∧
    (1 ≤ k → k ≤ w → w ≤ st.number →
      ∃ inds ql cog, find_best_frames st k w = Except.ok (inds, ql, cog, st)) := by
  constructor
  · constructor
    · intro h
      by_cases h1 : k > w
      · left; omega
      by_cases h2 : w > st.number
      · right; omega
      exfalso
      unfold find_best_frames at h
      rw [if_neg h1, if_neg h2] at h
      split_ifs at h <;> simp at h
    · intro h
      unfold find_best_frames
      by_cases h1 : k > w
      · rw [if_pos h1]
      · rw [if_neg h1, if_pos (by omega)]
  · intro hk hkw hwn
    obtain ⟨s₀, _, heq, _, _⟩ := find_best_frames_normal st k w hk hkw hwn
      hlen hpos hq (by omega)
    exact ⟨_, _, _, heq⟩

/-- Claim C9, counterexample to the claim as stated: on a one-frame rank
table, the call find_best_frames(0, 1) satisfies the claimed precondition
k ≤ window ≤ N but does not return normally: the top-0 global rank sum is
0.0 and the quality-loss division raises ZeroDivisionError (which is not an
ArgumentError, so the if-and-only-if about ArgumentError still holds). -/
theorem find_best_frames_zero_division_counterexample :
    (0 : ℕ) ≤ 1 ∧ (1 : ℕ) ≤ stOne.number ∧
    find_best_frames stOne 0 1 = Except.error PyErr.zeroDivisionError :=
  ⟨by omega, by decide, rfl⟩

theorem find_best_frames_argument_error_iff_witness :
    ((find_best_frames stS4 2 3 = Except.error PyErr.argumentError ↔
      ((3 : ℕ) < 2 ∨ stS4.number < 3)) ∧
    (1 ≤ 2 → 2 ≤ 3 → 3 ≤ stS4.number →
      ∃ inds ql cog, find_best_frames stS4 2 3 = Except.ok (inds, ql, cog, stS4))) :=
  find_best_frames_argument_error_iff stS4 2 3 rfl stS4_ranks_pos stS4_qsi_lt
    (by rw [stS4_qsi_len]; rfl)

theorem map_range_getD (l : List ℚ) :
    (List.range l.length).map (fun i => l.getD i 0) = l := by
  apply List.ext_getElem
  · simp
  · intro n h1 h2
    simp only [List.getElem_map, List.getElem_range]
    rw [List.getD_eq_getElem _ _ h2]

theorem set_index_translation_frame_ranks (st : RankState) (T : List ℕ) :
    (set_index_translation st T).frame_ranks =
      (T.map fun i => st.frame_ranks_original.getD i 0).map
        (fun q => q / (T.map fun i => st.frame_ranks_original.getD i 0).getD
          ((sortIndicesDesc (T.map fun i => st.frame_ranks_original.getD i 0)
            (List.range T.length)).headD 0) 0) := rfl

/-- Claim C8: reset_index_translation is a left inverse of
set_index_translation — after set_index_translation(T) on a state whose
active set equals the saved originals, reset_index_translation restores the
state identically (set_index_translation never touches the ..._original
fields); and set_index_translation(range(N)) followed by its renormalization
yields frame ranks elementwise equal to the originals exactly (the original
ranks are normalized with maximum 1, so the renormalizing division is by 1). -/
theorem rank_translation_reset_left_inverse (st : RankState) (T : List ℕ)
    (hsync : RankSynced st)
    (hlen : st.frame_ranks_original.length = st.number_original)
    (hle : ∀ q ∈ st.frame_ranks_original, q ≤ 1)
    (hone : (1 : ℚ) ∈ st.frame_ranks_original) :
    reset_index_translation (set_index_translation st T) = st ∧
    (set_index_translation st (List.range st.number_original)).frame_ranks =
      st.frame_ranks_original := by
  obtain ⟨h1, h2, h3, h4, h5, h6⟩ := hsync
  constructor
  · cases st
    simp only [set_index_translation, reset_index_translation] at *
    simp_all
  · rw [set_index_translation_frame_ranks]
    have hmap : (List.range st.number_original).map
        (fun i => st.frame_ranks_original.getD i 0) = st.frame_ranks_original := by
      conv in List.range st.number_original => rw [← hlen]
      exact map_range_getD _
    rw [hmap, List.length_range]
    have hne : st.number_original ≠ 0 := by
      intro h0
      rw [h0] at hlen
      have hnil : st.frame_ranks_original = [] := List.eq_nil_of_length_eq_zero hlen
      rw [hnil] at hone
      simp at hone
    have hqlen2 : (sortIndicesDesc st.frame_ranks_original
        (List.range st.number_original)).length = st.number_original := by
      rw [sortIndicesDesc_length, List.length_range]
    have hhead_mem : (sortIndicesDesc st.frame_ranks_original
        (List.range st.number_original)).headD 0 ∈
        sortIndicesDesc st.frame_ranks_original (List.range st.number_original) := by
      rcases hqq : sortIndicesDesc st.frame_ranks_original
          (List.range st.number_original) with _ | ⟨a, t⟩
      · rw [hqq] at hqlen2
        simp at hqlen2
        omega
      · simp
    have hhead_lt : (sortIndicesDesc st.frame_ranks_original
        (List.range st.number_original)).headD 0 < st.number_original :=
      List.mem_range.mp ((sortIndicesDesc_perm _ _).mem_iff.mp hhead_mem)
    have hub : st.frame_ranks_original.getD ((sortIndicesDesc
        st.frame_ranks_original (List.range st.number_original)).headD 0) 0 ≤ 1 := by
      have hlt : (sortIndicesDesc st.frame_ranks_original
          (List.range st.number_original)).headD 0 <
          st.frame_ranks_original.length := by omega
      rw [List.getD_eq_getElem _ _ hlt]
      exact hle _ (List.getElem_mem hlt)
    obtain ⟨idx, hidxlt, hidxval⟩ := List.mem_iff_getElem.mp hone
    have hidx_mem : idx ∈ sortIndicesDesc st.frame_ranks_original
        (List.range st.number_original) :=
      (sortIndicesDesc_perm _ _).mem_iff.mpr (List.mem_range.mpr (by omega))
    have hlb := sortIndicesDesc_head_max st.frame_ranks_original
      (List.range st.number_original) idx hidx_mem
    rw [List.getD_eq_getElem _ _ hidxlt, hidxval] at hlb
    rw [le_antisymm hub hlb]
    have hdiv : ∀ q ∈ st.frame_ranks_original, q / (1 : ℚ) = q := by
      intro q _
      exact div_one q
    rw [List.map_congr_left hdiv]
    exact List.map_id' st.frame_ranks_original

theorem stOne_ranks_eq : stOne.frame_ranks_original = [1] := rfl

theorem rank_translation_reset_left_inverse_witness :
    (RankSynced stOne ∧
      stOne.frame_ranks_original.length = stOne.number_original ∧
      (∀ q ∈ stOne.frame_ranks_original, q ≤ 1) ∧
      (1 : ℚ) ∈ stOne.frame_ranks_original) ∧
    (reset_index_translation (set_index_translation stOne [0]) = stOne ∧
      (set_index_translation stOne (List.range stOne.number_original)).frame_ranks =
        stOne.frame_ranks_original) :=
  ⟨⟨⟨rfl, rfl, rfl, rfl, rfl, rfl⟩, rfl,
      by
        intro q hq
        rw [stOne_ranks_eq] at hq
        simp at hq
        rw [hq],
      by rw [stOne_ranks_eq]; simp⟩,
    rank_translation_reset_left_inverse stOne [0] ⟨rfl, rfl, rfl, rfl, rfl, rfl⟩ rfl
      (by
        intro q hq
        rw [stOne_ranks_eq] at hq
        simp at hq
        rw [hq])
      (by rw [stOne_ranks_eq]; simp)⟩

theorem mem_background_tiles_all (dim_y dim_x patch_size : ℕ) (t : BGPatch) :
    t ∈ background_tiles_all dim_y dim_x patch_size ↔
      IsBGTile dim_y dim_x patch_size t := by
  unfold background_tiles_all IsBGTile pyRangeStep
  constructor
  · intro h
    obtain ⟨ylo, hylo, h⟩ := List.mem_flatMap.mp h
    obtain ⟨hylo_lt, hylo_mod⟩ := List.mem_filter.mp hylo
    rw [List.mem_range] at hylo_lt
    split_ifs at h with hy0
    · simp at h
    · obtain ⟨xlo, hxlo, h⟩ := List.mem_flatMap.mp h
      obtain ⟨hxlo_lt, hxlo_mod⟩ := List.mem_filter.mp hxlo
      rw [List.mem_range] at hxlo_lt
      split_ifs at h with hx0
      · simp at h
      · rw [List.mem_singleton] at h
        subst h
        have hyle : ylo ≤ min (ylo + patch_size) (dim_y - 1) :=
          le_min (by omega) (by omega)
        have hxle : xlo ≤ min (xlo + patch_size) (dim_x - 1) :=
          le_min (by omega) (by omega)
        dsimp only
        refine ⟨by simpa using hylo_mod, hylo_lt, rfl, by omega,
          by simpa using hxlo_mod, hxlo_lt, rfl, by omega⟩
  · rintro ⟨hym, hylt, hyhi, hylh, hxm, hxlt, hxhi, hxlh⟩
    apply List.mem_flatMap.mpr
    refine ⟨t.patch_y_low, List.mem_filter.mpr ⟨List.mem_range.mpr hylt, by simpa using hym⟩, ?_⟩
    rw [if_neg (by omega)]
    apply List.mem_flatMap.mpr
    refine ⟨t.patch_x_low, List.mem_filter.mpr ⟨List.mem_range.mpr hxlt, by simpa using hxm⟩, ?_⟩
    rw [if_neg (by omega)]
    rw [List.mem_singleton]
    cases t
    simp_all

theorem IsBGTile_unique (dim_y dim_x patch_size : ℕ) (hP : 1 ≤ patch_size)
    (t₁ t₂ : BGPatch) (y x : ℕ)
    (h1 : IsBGTile dim_y dim_x patch_size t₁) (h2 : IsBGTile dim_y dim_x patch_size t₂)
    (hc1 : tileCovers t₁ y x) (hc2 : tileCovers t₂ y x) : t₁ = t₂ := by
  obtain ⟨m1, lt1, hi1, lh1, m1x, lt1x, hi1x, lh1x⟩ := h1
  obtain ⟨m2, lt2, hi2, lh2, m2x, lt2x, hi2x, lh2x⟩ := h2
  obtain ⟨cy1, cy1h, cx1, cx1h⟩ := hc1
  obtain ⟨cy2, cy2h, cx2, cx2h⟩ := hc2
  have key : ∀ a b : ℕ, a % patch_size = 0 → b % patch_size = 0 →
      a ≤ y → y < a + patch_size → b ≤ y → y < b + patch_size → a = b := by
    intro a b ha hb hay hya hby hyb
    have da : patch_size ∣ a := Nat.dvd_of_mod_eq_zero ha
    have db : patch_size ∣ b := Nat.dvd_of_mod_eq_zero hb
    rcases Nat.le_total a b with hab | hab
    · have hd : patch_size ∣ (b - a) := Nat.dvd_sub' db da
      have hz : b - a = 0 := Nat.eq_zero_of_dvd_of_lt hd (by omega)
      omega
    · have hd : patch_size ∣ (a - b) := Nat.dvd_sub' da db
      have hz : a - b = 0 := Nat.eq_zero_of_dvd_of_lt hd (by omega)
      omega
  have hby1 : y < t₁.patch_y_low + patch_size := by
    have := min_le_left (t₁.patch_y_low + patch_size) (dim_y - 1)
    omega
  have hby2 : y < t₂.patch_y_low + patch_size := by
    have := min_le_left (t₂.patch_y_low + patch_size) (dim_y - 1)
    omega
  have keyx : ∀ a b : ℕ, a % patch_size = 0 → b % patch_size = 0 →
      a ≤ x → x < a + patch_size → b ≤ x → x < b + patch_size → a = b := by
    intro a b ha hb hay hya hby hyb
    have da : patch_size ∣ a := Nat.dvd_of_mod_eq_zero ha
    have db : patch_size ∣ b := Nat.dvd_of_mod_eq_zero hb
    rcases Nat.le_total a b with hab | hab
    · have hd : patch_size ∣ (b - a) := Nat.dvd_sub' db da
      have hz : b - a = 0 := Nat.eq_zero_of_dvd_of_lt hd (by omega)
      omega
    · have hd : patch_size ∣ (a - b) := Nat.dvd_sub' da db
      have hz : a - b = 0 := Nat.eq_zero_of_dvd_of_lt hd (by omega)
      omega
  have hbx1 : x < t₁.patch_x_low + patch_size := by
    have := min_le_left (t₁.patch_x_low + patch_size) (dim_x - 1)
    omega
  have hbx2 : x < t₂.patch_x_low + patch_size := by
    have := min_le_left (t₂.patch_x_low + patch_size) (dim_x - 1)
    omega
  have hylo : t₁.patch_y_low = t₂.patch_y_low :=
    key _ _ m1 m2 cy1 hby1 cy2 hby2
  have hxlo : t₁.patch_x_low = t₂.patch_x_low :=
    keyx _ _ m1x m2x cx1 hbx1 cx2 hbx2
  have hyhi : t₁.patch_y_high = t₂.patch_y_high := by rw [hi1, hi2, hylo]
  have hxhi : t₁.patch_x_high = t₂.patch_x_high := by rw [hi1x, hi2x, hxlo]
  cases t₁
  cases t₂
  simp only [BGPatch.mk.injEq]
  exact ⟨hylo, hyhi, hxlo, hxhi⟩

theorem IsBGTile_cover (dim_y dim_x patch_size : ℕ) (hP : 1 ≤ patch_size)
    (y x : ℕ) (hy : y < dim_y - 1) (hx : x < dim_x - 1) :
    ∃ t, IsBGTile dim_y dim_x patch_size t ∧ tileCovers t y x := by
  have hymod : y / patch_size * patch_size % patch_size = 0 :=
    Nat.mul_mod_left _ _
  have hxmod : x / patch_size * patch_size % patch_size = 0 :=
    Nat.mul_mod_left _ _
  have hyle : y / patch_size * patch_size ≤ y := Nat.div_mul_le_self y patch_size
  have hxle : x / patch_size * patch_size ≤ x := Nat.div_mul_le_self x patch_size
  have hylt : y < y / patch_size * patch_size + patch_size := by
    have h1 := Nat.div_add_mod y patch_size
    have h2 : y % patch_size < patch_size := Nat.mod_lt y (by omega)
    have h3 : patch_size * (y / patch_size) = y / patch_size * patch_size :=
      Nat.mul_comm _ _
    omega
  have hxlt : x < x / patch_size * patch_size + patch_size := by
    have h1 := Nat.div_add_mod x patch_size
    have h2 : x % patch_size < patch_size := Nat.mod_lt x (by omega)
    have h3 : patch_size * (x / patch_size) = x / patch_size * patch_size :=
      Nat.mul_comm _ _
    omega
  refine ⟨⟨y / patch_size * patch_size,
      min (y / patch_size * patch_size + patch_size) (dim_y - 1),
      x / patch_size * patch_size,
      min (x / patch_size * patch_size + patch_size) (dim_x - 1)⟩, ?_, ?_⟩
  · unfold IsBGTile
    dsimp only
    refine ⟨hymod, by omega, rfl, ?_, hxmod, by omega, rfl, ?_⟩
    · exact lt_of_le_of_lt hyle (lt_min hylt hy)
    · exact lt_of_le_of_lt hxle (lt_min hxlt hx)
  · unfold tileCovers
    dsimp only
    exact ⟨hyle, lt_min hylt hy, hxle, lt_min hxlt hx⟩

theorem IsBGTile_misses_last (dim_y dim_x patch_size : ℕ) (t : BGPatch) (y x : ℕ)
    (h : IsBGTile dim_y dim_x patch_size t) :
    ¬ tileCovers t (dim_y - 1) x ∧ ¬ tileCovers t y (dim_x - 1) := by
  obtain ⟨_, _, hyhi, _, _, _, hxhi, _⟩ := h
  constructor
  · rintro ⟨c1, c2, c3, c4⟩
    have := min_le_right (t.patch_y_low + patch_size) (dim_y - 1)
    omega
  · rintro ⟨c1, c2, c3, c4⟩
    have := min_le_right (t.patch_x_low + patch_size) (dim_x - 1)
    omega

/-- Claim C3 (amended): the tiles generated by prepare_for_stack_blending
are exactly the clipped rectangles characterized by IsBGTile filtered to
those whose drizzled projection contains a low-weight pixel; the candidate
family is pairwise non-overlapping (a pixel lies in at most one candidate
tile) and covers exactly the sub-rectangle [0, H-1) x [0, W-1): every pixel
outside the last row and last column lies in a candidate tile, and no
candidate tile ever covers the last row or last column of the image. -/
theorem background_patches_spec (dim_y dim_x patch_size drizzle_factor : ℕ)
    (weight_sum : ℕ → ℕ → ℚ) (threshold : ℚ) (t t₁ t₂ : BGPatch) (y x : ℕ)
    (hP : 1 ≤ patch_size) :
    (t ∈ background_patches dim_y dim_x patch_size drizzle_factor weight_sum
        threshold ↔
      IsBGTile dim_y dim_x patch_size t ∧
        tile_needs_background drizzle_factor weight_sum threshold t = true) ∧
    (IsBGTile dim_y dim_x patch_size t₁ → IsBGTile dim_y dim_x patch_size t₂ →
      tileCovers t₁ y x → tileCovers t₂ y x → t₁ = t₂) ∧
    (y < dim_y - 1 → x < dim_x - 1 →
      ∃ t', IsBGTile dim_y dim_x patch_size t' ∧ tileCovers t' y x) ∧
    (IsBGTile dim_y dim_x patch_size t →
      ¬ tileCovers t (dim_y - 1) x ∧ ¬ tileCovers t y (dim_x - 1)) := by
  refine ⟨?_, fun a b c d => IsBGTile_unique _ _ _ hP t₁ t₂ y x a b c d,
    fun hy hx => IsBGTile_cover _ _ _ hP y x hy hx,
    fun h => IsBGTile_misses_last _ _ _ t y x h⟩
  unfold background_patches
  rw [List.mem_filter, mem_background_tiles_all]

theorem background_tiles_all_eval : background_tiles_all 3 3 2 = [⟨0, 2, 0, 2⟩] := rfl

theorem background_patches_eval :
    background_patches 3 3 2 1 holeWeightSum 1 = [] := by
  unfold background_patches
  rw [background_tiles_all_eval]
  have hneeds : tile_needs_background 1 holeWeightSum 1 ⟨0, 2, 0, 2⟩ = false := by
    unfold tile_needs_background
    norm_num [holeWeightSum, List.range_succ]
  simp [hneeds]

theorem background_plan_built_eval :
    background_plan_built 3 3 1 holeWeightSum 1 1 (3/10) = true := by
  unfold background_plan_built countGrid
  norm_num [holeWeightSum, List.range_succ]

/-- Claim C3, counterexample to the claim as stated: for a 3 x 3 image with
patch_size 2, drizzle 1, a single stacking hole at the last pixel (2, 2) and
background fraction 0.3, the tile plan is built, yet the only generated
candidate tile is [0,2) x [0,2): the hole pixel (2, 2) — like the whole last
row and column — is covered by no tile, refuting that the tiles' union
covers every pixel of the H x W image (the kept, filtered list is even
empty, since the hole lies outside every candidate tile). -/
theorem background_patches_counterexample :
    background_plan_built 3 3 1 holeWeightSum 1 1 (3/10) = true ∧
    background_tiles_all 3 3 2 = [⟨0, 2, 0, 2⟩] ∧
    background_patches 3 3 2 1 holeWeightSum 1 = [] ∧
    holeWeightSum 2 2 < 1 * (1 : ℚ) ∧
    ¬ tileCovers ⟨0, 2, 0, 2⟩ 2 2 ∧ (2 : ℕ) < 3 ∧ (2 : ℕ) < 3 :=
  ⟨background_plan_built_eval, background_tiles_all_eval, background_patches_eval,
    by norm_num [holeWeightSum], by unfold tileCovers; dsimp only; omega,
    by norm_num, by norm_num⟩

theorem background_patches_spec_witness :
    ((1 : ℕ) ≤ 2) ∧
    (((⟨0, 2, 0, 2⟩ : BGPatch) ∈ background_patches 3 3 2 1 holeWeightSum 1 ↔
      IsBGTile 3 3 2 ⟨0, 2, 0, 2⟩ ∧
        tile_needs_background 1 holeWeightSum 1 ⟨0, 2, 0, 2⟩ = true) ∧
    (IsBGTile 3 3 2 ⟨0, 2, 0, 2⟩ → IsBGTile 3 3 2 ⟨0, 2, 0, 2⟩ →
      tileCovers ⟨0, 2, 0, 2⟩ 1 1 → tileCovers ⟨0, 2, 0, 2⟩ 1 1 →
      (⟨0, 2, 0, 2⟩ : BGPatch) = ⟨0, 2, 0, 2⟩) ∧
    ((1 : ℕ) < 3 - 1 → (1 : ℕ) < 3 - 1 →
      ∃ t', IsBGTile 3 3 2 t' ∧ tileCovers t' 1 1) ∧
    (IsBGTile 3 3 2 ⟨0, 2, 0, 2⟩ →
      ¬ tileCovers ⟨0, 2, 0, 2⟩ (3 - 1) 1 ∧ ¬ tileCovers ⟨0, 2, 0, 2⟩ 1 (3 - 1))) :=
  ⟨by norm_num,
    background_patches_spec 3 3 2 1 holeWeightSum 1 ⟨0, 2, 0, 2⟩ ⟨0, 2, 0, 2⟩
      ⟨0, 2, 0, 2⟩ 1 1 (by norm_num)⟩
